import Mathlib

/-!
Verification of the Japanese G2P / prosody pipeline of this repository
(`style_bert_vits2/nlp/japanese/g2p.py`).

The pure algorithmic core is embedded as executable Lean definitions.
External collaborators (pyopenjtalk front end, fugashi tagger, yomikata
homograph model, BERT tokenizer) only supply symbolic inputs to the core, so
they are modelled as universally quantified inputs of the corresponding
types.  The static mora table and the punctuation / vowel sets live in
modules that are not part of the sources (`mora_list.py`, `symbols.py`);
they are modelled from the spec where concrete values are needed, and the
kana-to-phoneme converter built on the mora table is kept as an abstract
function parameter `k2p`.
-/

/-- Python-style slice-index resolution: negative indices count from the
end, and everything is clamped into `[0, n]`. -/
def pySliceIdx (n : Nat) (i : Int) : Nat :=
  if i < 0 then ((n : Int) + i).toNat else min i.toNat n

/-- Python slice `l[a : b]`. -/
def pySlice (l : List α) (a b : Int) : List α :=
  (l.take (pySliceIdx l.length b)).drop (pySliceIdx l.length a)

/-- Python indexing `l[i]`: negative indices wrap once; out-of-range
indexing raises (modelled as `none`). -/
def pyGet? (l : List α) (i : Int) : Option α :=
  if i < 0 then
    if (l.length : Int) + i < 0 then none else l[((l.length : Int) + i).toNat]?
  else l[i.toNat]?

/-- Python slice `l[1:-1]`, used to strip the two boundary dummies. -/
def pyStrip (l : List α) : List α :=
  (l.drop 1).dropLast

/-- `mapM` over `Option`, written out so that induction is direct. -/
def omap (f : α → Option β) : List α → Option (List β)
  | [] => some []
  | x :: xs =>
    match f x, omap f xs with
    | some y, some ys => some (y :: ys)
    | _, _ => none

/-- Digit-string accumulator for `pyInt?`. -/
def digitsAux : List Char → Nat → Option Nat
  | [], acc => some acc
  | c :: cs, acc =>
    if c.isDigit then digitsAux cs (acc * 10 + (c.toNat - '0'.toNat)) else none

/-- Python `int(s)` on a decimal string (optional leading minus);
anything else raises, modelled as `none`. -/
def pyInt? (s : String) : Option Int :=
  match s.toList with
  | [] => none
  | '-' :: cs =>
    match cs, digitsAux cs 0 with
    | [], _ => none
    | _, some n => some (-(n : Int))
    | _, none => none
  | cs => (digitsAux cs 0).map (fun n => (n : Int))

/-- Modelled from the spec: the fixed punctuation set of the missing
`style_bert_vits2/nlp/symbols.py` module. -/
def PUNCTUATIONS : List String := ["!", "?", "…", ",", ".", "'", "-"]

/-- Modelled from the spec: the vowel set (vowels plus the moraic nasal
`N`) of the missing `style_bert_vits2/nlp/japanese/mora_list.py` module. -/
def VOWELS : List String := ["a", "i", "u", "e", "o", "N"]

/-! ### `__fix_phone_tone` (g2p.py lines 1425-1449)

Normalizes an accent phrase's running tones into `{0,1}`.  The Python
`set` of tones is modelled as a `Finset ℤ`, the `assert` and the two
`raise ValueError` branches as `none`. -/

/-- The set of tone values of a phone/tone list (Python `set(...)`). -/
def toneValues (ptl : List (String × Int)) : Finset ℤ :=
  (ptl.map Prod.snd).toFinset

/-- `__fix_phone_tone` from the source. -/
def fix_phone_tone (ptl : List (String × Int)) : Option (List (String × Int)) :=
  let tv := toneValues ptl
  if tv.card = 1 then
    if tv = {0} then some ptl else none
  else if tv.card = 2 then
    if tv = {0, 1} then some ptl
    else if tv = {-1, 0} then
      some (ptl.map (fun pt => (pt.1, if pt.2 = -1 then (0 : Int) else 1)))
    else none
  else none

theorem toneValues_card_one_of_zero {ptl : List (String × Int)}
    (h : toneValues ptl = {0}) : (toneValues ptl).card = 1 := by
  rw [h]; rfl

theorem toneValues_card_two_of_zero_one {ptl : List (String × Int)}
    (h : toneValues ptl = {0, 1}) : (toneValues ptl).card = 2 := by
  rw [h]; rfl

theorem toneValues_card_two_of_negone_zero {ptl : List (String × Int)}
    (h : toneValues ptl = {-1, 0}) : (toneValues ptl).card = 2 := by
  rw [h]; rfl

/-- On success, every tone of `fix_phone_tone`'s output lies in `{0,1}`. -/
theorem fix_phone_tone_tones {ptl out : List (String × Int)}
    (h : fix_phone_tone ptl = some out) :
    ∀ pr ∈ out, pr.2 = 0 ∨ pr.2 = 1 := by
  unfold fix_phone_tone at h
  by_cases h1 : toneValues ptl = {0}
  · rw [if_pos (toneValues_card_one_of_zero h1), if_pos h1] at h
    cases h
    intro pr hpr
    left
    have : pr.2 ∈ toneValues ptl := by
      unfold toneValues
      exact List.mem_toFinset.2 (List.mem_map.2 ⟨pr, hpr, rfl⟩)
    rw [h1] at this
    simpa using this
  · by_cases hc1 : (toneValues ptl).card = 1
    · rw [if_pos hc1, if_neg h1] at h; cases h
    · rw [if_neg hc1] at h
      by_cases h2 : toneValues ptl = {0, 1}
      · rw [if_pos (toneValues_card_two_of_zero_one h2), if_pos h2] at h
        cases h
        intro pr hpr
        have : pr.2 ∈ toneValues ptl := by
          unfold toneValues
          exact List.mem_toFinset.2 (List.mem_map.2 ⟨pr, hpr, rfl⟩)
        rw [h2] at this
        simpa using this
      · by_cases hc2 : (toneValues ptl).card = 2
        · rw [if_pos hc2, if_neg h2] at h
          by_cases h3 : toneValues ptl = {-1, 0}
          · rw [if_pos h3] at h
            cases h
            intro pr hpr
            rcases List.mem_map.1 hpr with ⟨q, _, rfl⟩
            by_cases hq : q.2 = -1
            · simp [hq]
            · simp [hq]
          · rw [if_neg h3] at h; cases h
        · rw [if_neg hc2] at h; cases h

/-- C2: `__fix_phone_tone` returns the buffer unchanged when its tone set
is `{0}` or `{0,1}`, maps `-1 ↦ 0`, `0 ↦ 1` when the tone set is
`{-1,0}`, and fails fatally (`none`) for every other tone set, including
the empty set and `{1}`. -/
theorem c2_fix_phone_tone_cases (ptl : List (String × Int)) :
    (toneValues ptl = {0} → fix_phone_tone ptl = some ptl) ∧
    (toneValues ptl = {0, 1} → fix_phone_tone ptl = some ptl) ∧
    (toneValues ptl = {-1, 0} →
      fix_phone_tone ptl =
        some (ptl.map (fun pt => (pt.1, if pt.2 = -1 then (0 : Int) else 1)))) ∧
    (toneValues ptl ≠ {0} → toneValues ptl ≠ {0, 1} → toneValues ptl ≠ {-1, 0} →
      fix_phone_tone ptl = none) := by
  refine ⟨?_, ?_, ?_, ?_⟩
  · intro h
    unfold fix_phone_tone
    rw [if_pos (toneValues_card_one_of_zero h), if_pos h]
  · intro h
    have hc : (toneValues ptl).card = 2 := toneValues_card_two_of_zero_one h
    have hc1 : ¬ (toneValues ptl).card = 1 := by omega
    unfold fix_phone_tone
    rw [if_neg hc1, if_pos hc, if_pos h]
  · intro h
    have hc : (toneValues ptl).card = 2 := toneValues_card_two_of_negone_zero h
    have hc1 : ¬ (toneValues ptl).card = 1 := by omega
    have hne : toneValues ptl ≠ {0, 1} := by
      rw [h]; decide
    unfold fix_phone_tone
    rw [if_neg hc1, if_pos hc, if_neg hne, if_pos h]
  · intro h1 h2 h3
    unfold fix_phone_tone
    by_cases hc1 : (toneValues ptl).card = 1
    · rw [if_pos hc1, if_neg h1]
    · rw [if_neg hc1]
      by_cases hc2 : (toneValues ptl).card = 2
      · rw [if_pos hc2, if_neg h2, if_neg h3]
      · rw [if_neg hc2]

theorem c2_witness :
    toneValues [("a", (-1 : Int)), ("i", 0)] = {-1, 0} ∧
    fix_phone_tone [("a", (-1 : Int)), ("i", 0)] = some [("a", 0), ("i", 1)] := by
  refine ⟨by decide, ?_⟩
  have h := (c2_fix_phone_tone_cases [("a", (-1 : Int)), ("i", 0)]).2.2.1 (by decide)
  simpa using h

/-! ### `__g2phone_tone_wo_punct` (g2p.py lines 1273-1327)

Consumes the prosody symbol stream (`__pyopenjtalk_g2p_prosody`'s output,
here a universally quantified input, since it is computed from the
external front end's full-context labels).  The `assert`s are modelled
as `none`. -/

/-- The accent-phrase boundary symbols `("$", "?", "_", "#")`. -/
def boundarySymbols : List String := ["$", "?", "_", "#"]

/-- The loop body of `__g2phone_tone_wo_punct`; `first` tracks whether we
are at index 0 (for the `^` assertion), `ct` is `current_tone`, `phrase`
is `current_phrase` and `acc` is `result`. -/
def g2ptwpGo : Bool → Int → List (String × Int) → List (String × Int) →
    List String → Option (List (String × Int))
  | _, _, _, acc, [] => some acc
  | first, ct, phrase, acc, letter :: rest =>
    if letter = "^" then
      if first then g2ptwpGo false ct phrase acc rest else none
    else if letter ∈ boundarySymbols then
      match fix_phone_tone phrase with
      | none => none
      | some fixed =>
        if (letter = "$" ∨ letter = "?") ∧ rest ≠ [] then none
        else g2ptwpGo false 0 [] (acc ++ fixed) rest
    else if letter = "[" then g2ptwpGo false (ct + 1) phrase acc rest
    else if letter = "]" then g2ptwpGo false (ct - 1) phrase acc rest
    else
      let l2 := if letter = "cl" then "q" else letter
      g2ptwpGo false ct (phrase ++ [(l2, ct)]) acc rest

/-- `__g2phone_tone_wo_punct`, starting from the prosody symbol list. -/
def g2phone_tone_wo_punct (prosodies : List String) :
    Option (List (String × Int)) :=
  g2ptwpGo true 0 [] [] prosodies

theorem g2ptwpGo_tones :
    ∀ (letters : List String) (first : Bool) (ct : Int)
      (phrase acc res : List (String × Int)),
      (∀ pr ∈ acc, pr.2 = 0 ∨ pr.2 = 1) →
      g2ptwpGo first ct phrase acc letters = some res →
      ∀ pr ∈ res, pr.2 = 0 ∨ pr.2 = 1 := by
  intro letters
  induction letters with
  | nil =>
    intro first ct phrase acc res hacc h
    cases h
    exact hacc
  | cons letter rest ih =>
    intro first ct phrase acc res hacc h
    unfold g2ptwpGo at h
    by_cases h1 : letter = "^"
    · rw [if_pos h1] at h
      cases first with
      | true => exact ih _ _ _ _ _ hacc h
      | false => simp at h
    · rw [if_neg h1] at h
      by_cases h2 : letter ∈ boundarySymbols
      · rw [if_pos h2] at h
        split at h
        next hfix => exact absurd h (by simp)
        next fixed hfix =>
          by_cases h3 : (letter = "$" ∨ letter = "?") ∧ rest ≠ []
          · rw [if_pos h3] at h; cases h
          · rw [if_neg h3] at h
            refine ih _ _ _ _ _ ?_ h
            intro pr hpr
            rcases List.mem_append.1 hpr with hl | hr
            · exact hacc pr hl
            · exact fix_phone_tone_tones hfix pr hr
      · rw [if_neg h2] at h
        by_cases h3 : letter = "["
        · rw [if_pos h3] at h
          exact ih _ _ _ _ _ hacc h
        · rw [if_neg h3] at h
          by_cases h4 : letter = "]"
          · rw [if_pos h4] at h
            exact ih _ _ _ _ _ hacc h
          · rw [if_neg h4] at h
            exact ih _ _ _ _ _ hacc h

/-- Every tone produced by `__g2phone_tone_wo_punct` is 0 or 1. -/
theorem g2phone_tone_wo_punct_tones {prosodies : List String}
    {res : List (String × Int)}
    (h : g2phone_tone_wo_punct prosodies = some res) :
    ∀ pr ∈ res, pr.2 = 0 ∨ pr.2 = 1 :=
  g2ptwpGo_tones prosodies true 0 [] [] res (by intro pr hpr; cases hpr) h

/-! ### `__align_tones` (g2p.py lines 1536-1576)

Re-attaches punctuation to the punctuation-free phone/tone list by
walking a cursor over it.  The `raise ValueError` is modelled as
`none`. -/

/-- The loop of `__align_tones`, with `ti` the cursor `tone_index`. -/
def alignGo (ptl : List (String × Int)) : List String → Nat →
    Option (List (String × Int))
  | [], _ => some []
  | phone :: rest, ti =>
    if h : ti < ptl.length then
      if phone = (ptl.get ⟨ti, h⟩).1 then
        (fun r => (phone, (ptl.get ⟨ti, h⟩).2) :: r) <$> alignGo ptl rest (ti + 1)
      else if phone ∈ PUNCTUATIONS then
        (fun r => (phone, (0 : Int)) :: r) <$> alignGo ptl rest ti
      else none
    else
      (fun r => (phone, (0 : Int)) :: r) <$> alignGo ptl rest ti

/-- `__align_tones` from the source. -/
def align_tones (phones_with_punct : List String)
    (phone_tone_list : List (String × Int)) : Option (List (String × Int)) :=
  alignGo phone_tone_list phones_with_punct 0

theorem alignGo_spec (ptl : List (String × Int)) :
    ∀ (phones : List String) (ti : Nat) (res : List (String × Int)),
      alignGo ptl phones ti = some res →
      res.map Prod.fst = phones ∧
      ∀ pr ∈ res, pr.2 = 0 ∨ pr ∈ ptl := by
  intro phones
  induction phones with
  | nil =>
    intro ti res h
    cases h
    exact ⟨rfl, by intro pr hpr; cases hpr⟩
  | cons phone rest ih =>
    intro ti res h
    unfold alignGo at h
    by_cases hti : ti < ptl.length
    · rw [dif_pos hti] at h
      by_cases heq : phone = (ptl.get ⟨ti, hti⟩).1
      · rw [if_pos heq] at h
        cases hrec : alignGo ptl rest (ti + 1) with
        | none => rw [hrec] at h; cases h
        | some r =>
          rw [hrec] at h
          cases h
          obtain ⟨hmap, htone⟩ := ih (ti + 1) r hrec
          constructor
          · simp [hmap]
          · intro pr hpr
            rcases List.mem_cons.1 hpr with hhd | htl
            · subst hhd
              right
              have : (phone, (ptl.get ⟨ti, hti⟩).2) = ptl.get ⟨ti, hti⟩ := by
                rw [heq]
              rw [this]
              exact List.get_mem ptl ti hti
            · exact htone pr htl
      · rw [if_neg heq] at h
        by_cases hp : phone ∈ PUNCTUATIONS
        · rw [if_pos hp] at h
          cases hrec : alignGo ptl rest ti with
          | none => rw [hrec] at h; cases h
          | some r =>
            rw [hrec] at h
            cases h
            obtain ⟨hmap, htone⟩ := ih ti r hrec
            refine ⟨by simp [hmap], ?_⟩
            intro pr hpr
            rcases List.mem_cons.1 hpr with hhd | htl
            · subst hhd; left; rfl
            · exact htone pr htl
        · rw [if_neg hp] at h; cases h
    · rw [dif_neg hti] at h
      cases hrec : alignGo ptl rest ti with
      | none => rw [hrec] at h; cases h
      | some r =>
        rw [hrec] at h
        cases h
        obtain ⟨hmap, htone⟩ := ih ti r hrec
        refine ⟨by simp [hmap], ?_⟩
        intro pr hpr
        rcases List.mem_cons.1 hpr with hhd | htl
        · subst hhd; left; rfl
        · exact htone pr htl

/-- C3: on success, `__align_tones` emits exactly one (phoneme, tone)
pair per input phoneme, in input order (so the phoneme projection of the
output equals the input list and the lengths agree), and every emitted
tone is either 0 (for exhausted-cursor or punctuation positions) or a
tone taken from the punctuation-free list at the cursor. -/
theorem c3_align_tones (phones : List String) (ptl res : List (String × Int))
    (h : align_tones phones ptl = some res) :
    res.map Prod.fst = phones ∧
    res.length = phones.length ∧
    ∀ pr ∈ res, pr.2 = 0 ∨ pr ∈ ptl := by
  obtain ⟨hmap, htone⟩ := alignGo_spec ptl phones 0 res h
  refine ⟨hmap, ?_, htone⟩
  calc res.length = (res.map Prod.fst).length := (List.length_map _ _).symm
    _ = phones.length := by rw [hmap]

theorem c3_witness :
    align_tones [".", "w", "a"] [("w", (0 : Int)), ("a", 1)] =
      some [(".", 0), ("w", 0), ("a", 1)] ∧
    (([(".", (0 : Int)), ("w", 0), ("a", 1)]).map Prod.fst = [".", "w", "a"] ∧
      ([(".", (0 : Int)), ("w", 0), ("a", 1)]).length = [".", "w", "a"].length ∧
      ∀ pr ∈ [(".", (0 : Int)), ("w", 0), ("a", 1)],
        pr.2 = 0 ∨ pr ∈ [("w", (0 : Int)), ("a", 1)]) := by
  have h : align_tones [".", "w", "a"] [("w", (0 : Int)), ("a", 1)] =
      some [(".", 0), ("w", 0), ("a", 1)] := by decide
  exact ⟨h, c3_align_tones [".", "w", "a"] [("w", (0 : Int)), ("a", 1)]
    [(".", 0), ("w", 0), ("a", 1)] h⟩

/-! ### `__handle_long` (g2p.py lines 1452-1488)

Fixes up elongation marks across the per-word phoneme lists.  The Python
code mutates `sep_phonemes` in place and reads `sep_phonemes[i - 1]`
after word `i - 1` has already been processed, so the embedding folds
over the words carrying the processed prefix.  Indexing an empty
previous word (`sep_phonemes[i-1][-1]`) or an empty phoneme string
raises, modelled as `none`. -/

/-- Python `s[-1]` as a 1-character string (raises on `""`). -/
def lastChar? (s : String) : Option String :=
  match s.data.getLast? with
  | none => none
  | some c => some (String.singleton c)

/-- The inner `for j in range(len(...))` replacement loop, for positions
after the first one: a `ー` at position `j ≥ 1` becomes the last
character of the (already rewritten) element at `j - 1`, with no vowel
test. -/
def handleLongInner : String → List String → Option (List String)
  | _, [] => some []
  | prev, x :: xs =>
    if x = "ー" then
      match lastChar? prev with
      | none => none
      | some c =>
        match handleLongInner c xs with
        | none => none
        | some r => some (c :: r)
    else
      match handleLongInner x xs with
      | none => none
      | some r => some (x :: r)

/-- The whole inner replacement loop including position `j = 0`, where
Python's `sep_phonemes[i][j-1]` wraps to the last element. -/
def handleLongWordLoop : List String → Option (List String)
  | [] => some []
  | x :: xs =>
    let first : Option String :=
      if x = "ー" then
        match (x :: xs).getLast? with
        | none => none
        | some l => lastChar? l
      else some x
    match first with
    | none => none
    | some x0 =>
      match handleLongInner x0 xs with
      | none => none
      | some r => some (x0 :: r)

/-- The first branch of `__handle_long`'s outer loop body: rewriting a
word-initial `ー` (only here is the previous word's last phoneme tested
against the vowel set). -/
def handleLongFirst (processed : List (List String)) (x : String)
    (xs : List String) : Option (List String) :=
  if x = "ー" then
    match processed.getLast? with
    | none => some ("-" :: xs)
    | some prevw =>
      match prevw.getLast? with
      | none => none
      | some p => if p ∈ VOWELS then some (p :: xs) else some ("-" :: xs)
  else some (x :: xs)

/-- One iteration of the outer loop of `__handle_long` on word `w`,
given the already processed words `processed`. -/
def handleLongStep (processed : List (List String)) :
    List String → Option (List String)
  | [] => some []
  | x :: xs =>
    match handleLongFirst processed x xs with
    | none => none
    | some w1 => handleLongWordLoop w1

/-- The outer loop of `__handle_long`. -/
def handleLongGo (processed : List (List String)) :
    List (List String) → Option (List (List String))
  | [] => some processed
  | w :: ws =>
    match handleLongStep processed w with
    | none => none
    | some w1 => handleLongGo (processed ++ [w1]) ws

/-- `__handle_long` from the source. -/
def handle_long (sep_phonemes : List (List String)) :
    Option (List (List String)) :=
  handleLongGo [] sep_phonemes

theorem handleLongInner_spec :
    ∀ (xs : List String) (prev : String) (os : List String),
      handleLongInner prev xs = some os →
      os.length = xs.length ∧
      (∀ xk, xs[0]? = some xk →
        (xk = "ー" → ∃ c, lastChar? prev = some c ∧ os[0]? = some c) ∧
        (xk ≠ "ー" → os[0]? = some xk)) ∧
      (∀ k xk ok, xs[k + 1]? = some xk → os[k]? = some ok →
        (xk = "ー" → ∃ c, lastChar? ok = some c ∧ os[k + 1]? = some c) ∧
        (xk ≠ "ー" → os[k + 1]? = some xk)) := by
  intro xs
  induction xs with
  | nil =>
    intro prev os h
    cases h
    refine ⟨rfl, ?_, ?_⟩
    · intro xk hxk; simp at hxk
    · intro k xk ok hxk; simp at hxk
  | cons x xs' ih =>
    intro prev os h
    unfold handleLongInner at h
    by_cases hx : x = "ー"
    · rw [if_pos hx] at h
      split at h
      · exact absurd h (by simp)
      next c hlc =>
        split at h
        · exact absurd h (by simp)
        next os' hrec =>
          cases h
          obtain ⟨hlen, hhd, htl⟩ := ih c os' hrec
          refine ⟨by simpa using hlen, ?_, ?_⟩
          · intro xk hxk
            simp only [List.getElem?_cons_zero, Option.some.injEq] at hxk
            subst hxk
            constructor
            · intro _
              exact ⟨c, hlc, by simp⟩
            · intro hne; exact absurd hx hne
          · intro k xk ok hxk hok
            simp only [List.getElem?_cons_succ] at hxk
            cases k with
            | zero =>
              simp only [List.getElem?_cons_zero, Option.some.injEq] at hok
              subst hok
              have := hhd xk hxk
              simpa using this
            | succ k' =>
              simp only [List.getElem?_cons_succ] at hok
              have := htl k' xk ok hxk hok
              simpa using this
    · rw [if_neg hx] at h
      split at h
      · exact absurd h (by simp)
      next os' hrec =>
        cases h
        obtain ⟨hlen, hhd, htl⟩ := ih x os' hrec
        refine ⟨by simpa using hlen, ?_, ?_⟩
        · intro xk hxk
          simp only [List.getElem?_cons_zero, Option.some.injEq] at hxk
          subst hxk
          exact ⟨fun hmark => absurd hmark hx, fun _ => by simp⟩
        · intro k xk ok hxk hok
          simp only [List.getElem?_cons_succ] at hxk
          cases k with
          | zero =>
            simp only [List.getElem?_cons_zero, Option.some.injEq] at hok
            subst hok
            have := hhd xk hxk
            simpa using this
          | succ k' =>
            simp only [List.getElem?_cons_succ] at hok
            have := htl k' xk ok hxk hok
            simpa using this

theorem handleLongWordLoop_eq_inner {x : String} (xs : List String)
    (hx : x ≠ "ー") :
    handleLongWordLoop (x :: xs) = handleLongInner x (x :: xs) := by
  rw [handleLongWordLoop, handleLongInner]
  simp only [if_neg hx]

theorem handleLongFirst_mark_none {processed : List (List String)}
    {x : String} (xs : List String) (hx : x = "ー")
    (hpl : processed.getLast? = none) :
    handleLongFirst processed x xs = some ("-" :: xs) := by
  unfold handleLongFirst
  rw [if_pos hx, hpl]

theorem handleLongFirst_mark_empty_prev {processed : List (List String)}
    {x : String} {pw : List String} (xs : List String) (hx : x = "ー")
    (hpl : processed.getLast? = some pw) (hpwl : pw.getLast? = none) :
    handleLongFirst processed x xs = none := by
  unfold handleLongFirst
  rw [if_pos hx, hpl]
  show (match pw.getLast? with
    | none => none
    | some p =>
      if p ∈ VOWELS then some (p :: xs) else some ("-" :: xs)) = none
  rw [hpwl]

theorem handleLongFirst_mark_prev {processed : List (List String)}
    {x : String} {pw : List String} {p : String} (xs : List String)
    (hx : x = "ー") (hpl : processed.getLast? = some pw)
    (hpwl : pw.getLast? = some p) :
    handleLongFirst processed x xs =
      some ((if p ∈ VOWELS then p else "-") :: xs) := by
  unfold handleLongFirst
  rw [if_pos hx, hpl]
  show (match pw.getLast? with
    | none => none
    | some p =>
      if p ∈ VOWELS then some (p :: xs) else some ("-" :: xs)) =
    some ((if p ∈ VOWELS then p else "-") :: xs)
  rw [hpwl]
  show (if p ∈ VOWELS then some (p :: xs) else some ("-" :: xs)) =
    some ((if p ∈ VOWELS then p else "-") :: xs)
  by_cases hv : p ∈ VOWELS
  · rw [if_pos hv, if_pos hv]
  · rw [if_neg hv, if_neg hv]

theorem handleLongFirst_plain {processed : List (List String)}
    {x : String} (xs : List String) (hx : x ≠ "ー") :
    handleLongFirst processed x xs = some (x :: xs) := by
  unfold handleLongFirst
  rw [if_neg hx]

theorem mem_VOWELS_ne_mark {p : String} (hv : p ∈ VOWELS) : p ≠ "ー" := by
  have hd : p = "a" ∨ p = "i" ∨ p = "u" ∨ p = "e" ∨ p = "o" ∨ p = "N" := by
    simpa [VOWELS] using hv
  rcases hd with h1 | h1 | h1 | h1 | h1 | h1 <;> rw [h1] <;> decide

theorem handleLongStep_spec :
    ∀ (processed : List (List String)) (w oi : List String),
      handleLongStep processed w = some oi →
      (w = [] → oi = []) ∧
      (∀ x xs, w = x :: xs →
        oi.length = w.length ∧
        (x ≠ "ー" → oi[0]? = some x) ∧
        (x = "ー" → processed.getLast? = none → oi[0]? = some "-") ∧
        (x = "ー" → ∀ pw p, processed.getLast? = some pw →
          pw.getLast? = some p →
          oi[0]? = some (if p ∈ VOWELS then p else "-")) ∧
        (∀ k xk ok, w[k + 1]? = some xk → oi[k]? = some ok →
          (xk = "ー" → ∃ c, lastChar? ok = some c ∧ oi[k + 1]? = some c) ∧
          (xk ≠ "ー" → oi[k + 1]? = some xk))) := by
  intro processed w oi h
  constructor
  · intro hw
    subst hw
    simp only [handleLongStep, Option.some.injEq] at h
    exact h.symm
  · intro x xs hw
    subst hw
    simp only [handleLongStep] at h
    have main : ∀ (x0 : String), x0 ≠ "ー" →
        handleLongWordLoop (x0 :: xs) = some oi →
        oi.length = (x0 :: xs).length ∧ oi[0]? = some x0 ∧
        (∀ k xk ok, (x :: xs)[k + 1]? = some xk → oi[k]? = some ok →
          (xk = "ー" → ∃ c, lastChar? ok = some c ∧ oi[k + 1]? = some c) ∧
          (xk ≠ "ー" → oi[k + 1]? = some xk)) := by
      intro x0 hx0 hloop
      rw [handleLongWordLoop_eq_inner xs hx0] at hloop
      obtain ⟨hlen, hhd, htl⟩ := handleLongInner_spec (x0 :: xs) x0 oi hloop
      have hhd0 : oi[0]? = some x0 := (hhd x0 (by simp)).2 hx0
      refine ⟨hlen, hhd0, ?_⟩
      intro k xk ok hxk hok
      have hxk2 : xs[k]? = some xk := by simpa using hxk
      have hxk3 : (x0 :: xs)[k + 1]? = some xk := by simpa using hxk2
      exact htl k xk ok hxk3 hok
    by_cases hx : x = "ー"
    · cases hpl : processed.getLast? with
      | none =>
        rw [handleLongFirst_mark_none xs hx hpl] at h
        have hm := main "-" (by decide) h
        refine ⟨by simpa using hm.1, ?_, ?_, ?_, hm.2.2⟩
        · intro hne; exact absurd hx hne
        · intro _ _; exact hm.2.1
        · intro _ pw p hpw _; cases hpw
      | some pw =>
        cases hpwl : pw.getLast? with
        | none =>
          rw [handleLongFirst_mark_empty_prev xs hx hpl hpwl] at h
          exact absurd h (by simp)
        | some p =>
          rw [handleLongFirst_mark_prev xs hx hpl hpwl] at h
          have hp : (if p ∈ VOWELS then p else "-") ≠ "ー" := by
            by_cases hv : p ∈ VOWELS
            · rw [if_pos hv]; exact mem_VOWELS_ne_mark hv
            · rw [if_neg hv]; decide
          have hm := main _ hp h
          refine ⟨by simpa using hm.1, ?_, ?_, ?_, hm.2.2⟩
          · intro hne; exact absurd hx hne
          · intro _ hnone; cases hnone
          · intro _ pw2 p2 hpw2 hp2
            cases hpw2
            rw [hpwl] at hp2
            cases hp2
            exact hm.2.1
    · rw [handleLongFirst_plain xs hx] at h
      have hm := main x hx h
      refine ⟨hm.1, fun _ => hm.2.1, ?_, ?_, hm.2.2⟩
      · intro hmark; exact absurd hmark hx
      · intro hmark; exact absurd hmark hx

theorem take_getLast_of_getElem :
    ∀ (l : List α) (j : Nat) (x : α), l[j]? = some x →
      (l.take (j + 1)).getLast? = some x := by
  intro l
  induction l with
  | nil => intro j x h; simp at h
  | cons a t ih =>
    intro j x h
    cases j with
    | zero =>
      simp only [List.getElem?_cons_zero, Option.some.injEq] at h
      subst h
      simp
    | succ j' =>
      simp only [List.getElem?_cons_succ] at h
      have hrec := ih j' x h
      simp only [List.take_succ_cons]
      exact Option.mem_def.1
        (List.mem_getLast?_cons (Option.mem_def.2 hrec))

theorem handleLongGo_spec :
    ∀ (ws processed out : List (List String)),
      handleLongGo processed ws = some out →
      (∃ t, out = processed ++ t ∧ t.length = ws.length) ∧
      (∀ i wi, ws[i]? = some wi → ∃ oi,
        out[processed.length + i]? = some oi ∧
        handleLongStep (out.take (processed.length + i)) wi = some oi) := by
  intro ws
  induction ws with
  | nil =>
    intro processed out h
    simp only [handleLongGo, Option.some.injEq] at h
    subst h
    refine ⟨⟨[], by simp, rfl⟩, ?_⟩
    intro i wi hwi
    simp at hwi
  | cons w ws' ih =>
    intro processed out h
    simp only [handleLongGo] at h
    cases hstep : handleLongStep processed w with
    | none => rw [hstep] at h; cases h
    | some w1 =>
      rw [hstep] at h
      obtain ⟨⟨t', ht', htlen⟩, hall⟩ := ih (processed ++ [w1]) out h
      have hout : out = processed ++ ([w1] ++ t') := by
        rw [ht', List.append_assoc]
      have houtP : out[processed.length]? = some w1 := by
        rw [hout]
        rw [List.getElem?_append_right (by simp)]
        simp
      have htake : out.take processed.length = processed := by
        rw [hout]
        exact List.take_left processed ([w1] ++ t')
      refine ⟨⟨[w1] ++ t', hout, by simpa using htlen⟩, ?_⟩
      intro i wi hwi
      cases i with
      | zero =>
        refine ⟨w1, by simpa using houtP, ?_⟩
        simp only [List.getElem?_cons_zero, Option.some.injEq] at hwi
        subst hwi
        simpa [htake] using hstep
      | succ i' =>
        simp only [List.getElem?_cons_succ] at hwi
        obtain ⟨oi, hoi, hstepi⟩ := hall i' wi hwi
        refine ⟨oi, ?_, ?_⟩
        · rw [show processed.length + (i' + 1) =
            (processed ++ [w1]).length + i' by simp; omega]
          exact hoi
        · rw [show processed.length + (i' + 1) =
            (processed ++ [w1]).length + i' by simp; omega]
          exact hstepi

/-- C7 counterexample: in `[["q", "ー"]]` the elongation mark sits at a
non-initial position and the immediately preceding phoneme `"q"` is not
a vowel, so the claim demands the dash `"-"`; `__handle_long` instead
copies `"q"` (the within-word replacement loop performs no vowel test). -/
theorem c7_counterexample :
    handle_long [["q", "ー"]] = some [["q", "q"]] ∧
    ("q" : String) ∉ VOWELS ∧ ("q" : String) ≠ "-" := by
  refine ⟨by decide, by decide, by decide⟩

/-- C7 (amended): in `__handle_long`, a word-initial elongation mark
becomes `"-"` when the word is the first word or the previous processed
word's final phoneme is not a vowel, and becomes a copy of that final
phoneme when it is a vowel; an elongation mark at a non-initial
position is unconditionally replaced by the last character of the
immediately preceding output element, with no vowel test; all other
positions are kept; empty words are skipped. -/
theorem c7_handle_long_corrected :
    ∀ (ws out : List (List String)), handle_long ws = some out →
      out.length = ws.length ∧
      ∀ i wi oi, ws[i]? = some wi → out[i]? = some oi →
        (wi = [] → oi = []) ∧
        (∀ x xs, wi = x :: xs →
          oi.length = wi.length ∧
          (x ≠ "ー" → oi[0]? = some x) ∧
          (x = "ー" → i = 0 → oi[0]? = some "-") ∧
          (x = "ー" → ∀ j oj p, i = j + 1 → out[j]? = some oj →
            oj.getLast? = some p →
            oi[0]? = some (if p ∈ VOWELS then p else "-")) ∧
          (∀ k xk ok, wi[k + 1]? = some xk → oi[k]? = some ok →
            (xk = "ー" → ∃ c, lastChar? ok = some c ∧ oi[k + 1]? = some c) ∧
            (xk ≠ "ー" → oi[k + 1]? = some xk))) := by
  intro ws out h
  obtain ⟨⟨t, hout, htlen⟩, hall⟩ := handleLongGo_spec ws [] out h
  have hlen : out.length = ws.length := by
    rw [hout]; simpa using htlen
  refine ⟨hlen, ?_⟩
  intro i wi oi hwi hoi
  obtain ⟨oi', hoi', hstep⟩ := hall i wi hwi
  rw [show ([] : List (List String)).length + i = i by simp] at hoi' hstep
  rw [hoi] at hoi'
  cases hoi'
  obtain ⟨hnil, hcons⟩ := handleLongStep_spec (out.take i) wi oi hstep
  refine ⟨hnil, ?_⟩
  intro x xs hw
  obtain ⟨hl, hplain, hmark0, hmarkp, hinner⟩ := hcons x xs hw
  refine ⟨hl, hplain, ?_, ?_, hinner⟩
  · intro hx hi
    subst hi
    exact hmark0 hx (by simp)
  · intro hx j oj p hij hoj hp
    subst hij
    have htake : (out.take (j + 1)).getLast? = some oj :=
      take_getLast_of_getElem out j oj hoj
    exact hmarkp hx oj p htake hp

theorem c7_witness :
    handle_long [["a"], ["ー", "x"]] = some [["a"], ["a", "x"]] ∧
    [["a"], ["a", "x"]].length = [["a"], ["ー", "x"]].length := by
  have h : handle_long [["a"], ["ー", "x"]] = some [["a"], ["a", "x"]] := by
    decide
  exact ⟨h, (c7_handle_long_corrected [["a"], ["ー", "x"]]
    [["a"], ["a", "x"]] h).1⟩

/-! ### `__distribute_phone` (g2p.py lines 1579-1598)

Round-robin distribution of a phoneme count over the word's units:
repeatedly increment the leftmost unit currently holding the minimum.
Python's `min([])` raises, modelled as `none`. -/

/-- One pass of the `for _ in range(n_phone)` loop. -/
def distributeGo : Nat → List Nat → Option (List Nat)
  | 0, l => some l
  | n + 1, l =>
    match l.min? with
    | none => none
    | some m => distributeGo n (l.set (l.indexOf m) (m + 1))

/-- `__distribute_phone` from the source. -/
def distribute_phone (n_phone n_word : Nat) : Option (List Nat) :=
  distributeGo n_phone (List.replicate n_word 0)

theorem sum_set_nat :
    ∀ (l : List Nat) (i v : Nat) (h : i < l.length),
      (l.set i v).sum + l[i] = l.sum + v := by
  intro l
  induction l with
  | nil => intro i v h; simp at h
  | cons a t ih =>
    intro i v h
    cases i with
    | zero => simp [List.set]; omega
    | succ i' =>
      simp only [List.set, List.sum_cons, List.getElem_cons_succ]
      have := ih i' v (by simpa using h)
      omega

theorem distributeGo_spec :
    ∀ (n : Nat) (l : List Nat), l ≠ [] →
      ∃ out, distributeGo n l = some out ∧
        out.length = l.length ∧ out.sum = l.sum + n := by
  intro n
  induction n with
  | zero =>
    intro l _
    exact ⟨l, rfl, rfl, by omega⟩
  | succ n' ih =>
    intro l hl
    obtain ⟨a, t, rfl⟩ := List.exists_cons_of_ne_nil hl
    have hmin : (a :: t).min? = some (t.min?.elim a (min a)) :=
      List.min?_cons
    have hmem : t.min?.elim a (min a) ∈ a :: t := by
      apply List.min?_mem _ hmin
      intro x y
      exact min_choice x y
    set m := t.min?.elim a (min a) with hm
    have hidx : (a :: t).indexOf m < (a :: t).length :=
      List.indexOf_lt_length.2 hmem
    set l' := (a :: t).set ((a :: t).indexOf m) (m + 1) with hl'
    have hl'ne : l' ≠ [] := by
      intro hemp
      have : l'.length = 0 := by rw [hemp]; rfl
      rw [hl'] at this
      simp at this
    obtain ⟨out, hout, hlen, hsum⟩ := ih l' hl'ne
    refine ⟨out, ?_, ?_, ?_⟩
    · unfold distributeGo
      rw [hmin]
      exact hout
    · rw [hlen, hl']
      simp
    · have hgetm : (a :: t)[(a :: t).indexOf m] = m :=
        List.getElem_indexOf hidx
      have hset := sum_set_nat (a :: t) ((a :: t).indexOf m) (m + 1) hidx
      rw [hgetm] at hset
      have : l'.sum = (a :: t).sum + 1 := by
        rw [hl'] at *
        omega
      omega

theorem distributeGo_single :
    ∀ (n k : Nat), distributeGo n [k] = some [k + n] := by
  intro n
  induction n with
  | zero => intro k; rfl
  | succ n' ih =>
    intro k
    unfold distributeGo
    have hmin : [k].min? = some k := rfl
    rw [hmin]
    show distributeGo n' ([k].set ([k].indexOf k) (k + 1)) = some [k + (n' + 1)]
    have hset : [k].set ([k].indexOf k) (k + 1) = [k + 1] := by
      simp [List.indexOf_cons_self]
    rw [hset, ih (k + 1)]
    have h1 : k + 1 + n' = k + (n' + 1) := by omega
    rw [h1]

/-- C6: `__distribute_phone` distributes round-robin, always incrementing
the leftmost minimum; `__distribute_phone 7 3 = [3,2,2]`,
`__distribute_phone n 1 = [n]` for every `n`, and for `n_word ≥ 1` the
result exists, has length `n_word` and sums to `n_phone`. -/
theorem c6_distribute_phone :
    distribute_phone 7 3 = some [3, 2, 2] ∧
    (∀ n, distribute_phone n 1 = some [n]) ∧
    (∀ n_phone n_word, 1 ≤ n_word → ∃ l,
      distribute_phone n_phone n_word = some l ∧
      l.length = n_word ∧ l.sum = n_phone) := by
  refine ⟨by decide, ?_, ?_⟩
  · intro n
    have := distributeGo_single n 0
    simpa [distribute_phone] using this
  · intro n_phone n_word hw
    have hne : List.replicate n_word (0 : Nat) ≠ [] := by
      intro hemp
      have : (List.replicate n_word (0 : Nat)).length = 0 := by rw [hemp]; rfl
      simp at this
      omega
    obtain ⟨out, hout, hlen, hsum⟩ := distributeGo_spec n_phone _ hne
    refine ⟨out, hout, by simpa using hlen, by simpa using hsum⟩

theorem c6_witness :
    ∃ l, distribute_phone 5 2 = some l ∧ l.length = 2 ∧ l.sum = 5 :=
  c6_distribute_phone.2.2 5 2 (by decide)

/-! ### `__convert_acc2hl` (g2p.py lines 461-614)

Converts a kana reading plus a raw accent code into a per-phoneme
high/low list of `"0"`/`"1"` strings.  The kana string is indexed and
sliced with Python semantics; every slice is converted to phonemes via
the kana-to-phoneme converter `k2p`, which is kept abstract because the
mora table it is built on (`mora_list.py`) is not under `src/`.
`int(accent)` is modelled with `String.toInt?` (the sentinels `ALL_H`
and `ALL_L` are tested first, exactly as in the source). -/

/-- The glide (youon) characters of the source's `_YOUON_PATTERN`. -/
def YOUON_CHARS : List Char := ['ァ', 'ィ', 'ゥ', 'ェ', 'ォ', 'ャ', 'ュ', 'ョ', 'ヮ']

/-- `_YOUON_PATTERN.fullmatch` on a single character. -/
def isYouon (c : Char) : Bool := YOUON_CHARS.contains c

/-- Whether the character at (in-range) index `i` is a glide character. -/
def youonAt (ks : List Char) (i : Nat) : Bool :=
  match ks[i]? with
  | some c => isYouon c
  | none => false

/-- One `"0"` per phoneme of the list. -/
def lows (ps : List String) : List String := ps.map (fun _ => "0")

/-- One `"1"` per phoneme of the list. -/
def highs (ps : List String) : List String := ps.map (fun _ => "1")

/-- Python string slice `kana[a:b]` as a string. -/
def strSlice (ks : List Char) (a b : Int) : String := String.mk (pySlice ks a b)

/-- Python string slice `kana[a:]` as a string. -/
def strFrom (ks : List Char) (a : Int) : String :=
  String.mk (pySlice ks a (ks.length : Int))

/-- The `accent == 0` (flat) branch of `__convert_acc2hl`: low for the
first unit (two kana if the second is a glide), high for the rest. -/
def acc2hlFlat (k2p : String → Option (List String)) (ks : List Char) :
    Option (List String) :=
  match pyGet? ks 1 with
  | none => none
  | some c1 =>
    if isYouon c1 then
      match k2p (strSlice ks 0 2), k2p (strFrom ks 2) with
      | some a, some b => some (lows a ++ highs b)
      | _, _ => none
    else
      match pyGet? ks 0 with
      | none => none
      | some c0 =>
        match k2p (String.singleton c0), k2p (strFrom ks 1) with
        | some a, some b => some (lows a ++ highs b)
        | _, _ => none

/-- The `accent == 1` branch of `__convert_acc2hl`: high for the first
unit (two kana if the second is a glide), low for the rest. -/
def acc2hlOne (k2p : String → Option (List String)) (ks : List Char) :
    Option (List String) :=
  match pyGet? ks 1 with
  | none => none
  | some c1 =>
    if isYouon c1 then
      match k2p (strSlice ks 0 2), k2p (strFrom ks 2) with
      | some a, some b => some (highs a ++ lows b)
      | _, _ => none
    else
      match pyGet? ks 0 with
      | none => none
      | some c0 =>
        match k2p (String.singleton c0), k2p (strFrom ks 1) with
        | some a, some b => some (highs a ++ lows b)
        | _, _ => none

/-- The `accent < mora` branch of `__convert_acc2hl` (nucleus strictly
inside): low before the nucleus, high exactly on the nucleus unit, low
after it, with two glide special cases. -/
def acc2hlMid (k2p : String → Option (List String)) (ks : List Char)
    (acc : Int) : Option (List String) :=
  match pyGet? ks 1 with
  | none => none
  | some c1 =>
    if isYouon c1 ∧ acc = 2 then
      match pyGet? ks 2 with
      | none => none
      | some c2 =>
        match k2p (strSlice ks 0 2), k2p (String.singleton c2),
            k2p (strFrom ks 3) with
        | some a, some b, some c => some (lows a ++ highs b ++ lows c)
        | _, _, _ => none
    else
      match pyGet? ks acc with
      | none => none
      | some cAcc =>
        if isYouon cAcc then
          match k2p (strSlice ks 0 (acc - 1)),
              k2p (strSlice ks (acc - 1) (acc + 1)),
              k2p (strFrom ks (acc + 1)) with
          | some a, some b, some c => some (lows a ++ highs b ++ lows c)
          | _, _, _ => none
        else
          match pyGet? ks (acc - 1) with
          | none => none
          | some c0 =>
            match k2p (strSlice ks 0 (acc - 1)), k2p (String.singleton c0),
                k2p (strFrom ks acc) with
            | some a, some b, some c => some (lows a ++ highs b ++ lows c)
            | _, _, _ => none

/-- The `accent == mora` branch of `__convert_acc2hl`: low up to the
final mora, high on it. -/
def acc2hlLast (k2p : String → Option (List String)) (ks : List Char)
    (acc : Int) : Option (List String) :=
  match pyGet? ks (acc - 1) with
  | none => none
  | some c0 =>
    match k2p (strSlice ks 0 (acc - 1)), k2p (String.singleton c0) with
    | some a, some b => some (lows a ++ highs b)
    | _, _ => none

/-- `__convert_acc2hl` after `int(accent)` has succeeded. -/
def acc2hlBody (k2p : String → Option (List String)) (kana : String)
    (acc : Int) : Option (List String) :=
  let ks := kana.toList
  let mora := ks.length
  if mora = 1 then
    if acc = 1 then (k2p kana).map highs else (k2p kana).map lows
  else if mora = 2 ∧ youonAt ks 1 then
    if acc = 1 then (k2p kana).map highs else (k2p kana).map lows
  else if acc = 0 then acc2hlFlat k2p ks
  else if acc = 1 then acc2hlOne k2p ks
  else if acc < (mora : Int) then acc2hlMid k2p ks acc
  else if acc = (mora : Int) then acc2hlLast k2p ks acc
  else some []

/-- `__convert_acc2hl` from the source; `int(accent)` is modelled with
`pyInt?` (the sentinels `ALL_H`/`ALL_L` are tested first, exactly as in
the source). -/
def convert_acc2hl (k2p : String → Option (List String)) (kana : String)
    (accent : String) : Option (List String) :=
  if accent = "ALL_H" then
    (k2p kana).map highs
  else if accent = "ALL_L" then
    (k2p kana).map lows
  else
    match pyInt? accent with
    | none => none
    | some acc => acc2hlBody k2p kana acc

theorem pySlice_natCast (l : List α) (a b : Nat) :
    pySlice l (a : Int) (b : Int) = (l.take b).drop a := by
  unfold pySlice pySliceIdx
  rw [if_neg (by omega), if_neg (by omega)]
  rw [Int.toNat_natCast, Int.toNat_natCast]
  have h1 : l.take (min b l.length) = l.take b := by
    by_cases hb : b ≤ l.length
    · rw [min_eq_left hb]
    · rw [min_eq_right (by omega), List.take_length,
        List.take_of_length_le (by omega)]
  rw [h1]
  have hlen : (l.take b).length ≤ l.length := by
    rw [List.length_take]
    omega
  by_cases ha : a ≤ l.length
  · rw [min_eq_left ha]
  · rw [min_eq_right (by omega)]
    rw [List.drop_eq_nil_of_le hlen, List.drop_eq_nil_of_le (by omega)]

theorem strFrom_natCast (ks : List Char) (a : Nat) :
    strFrom ks (a : Int) = String.mk (ks.drop a) := by
  unfold strFrom
  rw [pySlice_natCast, List.take_length]

theorem strSlice_natCast (ks : List Char) (a b : Nat) :
    strSlice ks (a : Int) (b : Int) = String.mk ((ks.take b).drop a) := by
  unfold strSlice
  rw [pySlice_natCast]

theorem pyGet?_natCast (l : List α) (a : Nat) : pyGet? l (a : Int) = l[a]? := by
  unfold pyGet?
  rw [if_neg (by omega : ¬ (a : Int) < 0), Int.toNat_natCast]

/-- Modelled from the spec: a small fragment of the static mora table
(the `mora_list.py` module with the full table is not under `src/`),
enough to evaluate concrete examples. -/
def MORA_MINI : List (Char × List String) :=
  [('ア', ["a"]), ('カ', ["k", "a"]), ('キ', ["k", "i"]), ('ク', ["k", "u"]),
   ('フ', ["f", "u"])]

/-- Modelled from the spec: per-character kana-to-phoneme conversion over
the miniature mora table, used to instantiate the abstract converter on
concrete inputs. -/
def k2pMini (s : String) : Option (List String) :=
  (omap (fun c => MORA_MINI.lookup c) s.toList).map List.flatten

/-- C9 counterexample: for the reading `カキク` with accent nucleus at
mora 2, the claim's rule (high on units 1..2, low after) predicts the
tone run `["1","1","1","1","0","0"]`, but `__convert_acc2hl` puts high
only on the nucleus mora itself and yields `["0","0","1","1","0","0"]`
(unit 1 is low). -/
theorem c9_counterexample :
    convert_acc2hl k2pMini "カキク" "2" = some ["0", "0", "1", "1", "0", "0"] ∧
    (["0", "0", "1", "1", "0", "0"] : List String) ≠
      ["1", "1", "1", "1", "0", "0"] := by
  exact ⟨by decide, by decide⟩

theorem convert_acc2hl_parse (k2p : String → Option (List String))
    (kana accent : String) (acc : Int) (hacc : pyInt? accent = some acc) :
    convert_acc2hl k2p kana accent = acc2hlBody k2p kana acc := by
  have h1 : accent ≠ "ALL_H" := by
    intro he
    rw [he] at hacc
    have hnone : pyInt? "ALL_H" = none := by decide
    rw [hnone] at hacc
    cases hacc
  have h2 : accent ≠ "ALL_L" := by
    intro he
    rw [he] at hacc
    have hnone : pyInt? "ALL_L" = none := by decide
    rw [hnone] at hacc
    cases hacc
  unfold convert_acc2hl
  rw [if_neg h1, if_neg h2, hacc]

theorem pyGet?_zero (l : List α) : pyGet? l (0 : Int) = l[0]? := by
  have h := pyGet?_natCast l 0
  simpa using h

theorem pyGet?_one (l : List α) : pyGet? l (1 : Int) = l[1]? := by
  have h := pyGet?_natCast l 1
  simpa using h

theorem pyGet?_two (l : List α) : pyGet? l (2 : Int) = l[2]? := by
  have h := pyGet?_natCast l 2
  simpa using h

theorem strFrom_one (ks : List Char) : strFrom ks (1 : Int) = String.mk (ks.drop 1) := by
  have h := strFrom_natCast ks 1
  simpa using h

theorem strFrom_two (ks : List Char) : strFrom ks (2 : Int) = String.mk (ks.drop 2) := by
  have h := strFrom_natCast ks 2
  simpa using h

theorem strFrom_three (ks : List Char) : strFrom ks (3 : Int) = String.mk (ks.drop 3) := by
  have h := strFrom_natCast ks 3
  simpa using h

theorem strSlice_zero_natCast (ks : List Char) (b : Nat) :
    strSlice ks (0 : Int) (b : Int) = String.mk (ks.take b) := by
  have h := strSlice_natCast ks 0 b
  simpa using h

theorem strSlice_zero_two (ks : List Char) :
    strSlice ks (0 : Int) (2 : Int) = String.mk (ks.take 2) := by
  have h := strSlice_natCast ks 0 2
  simpa using h

theorem body_uniform {k2p : String → Option (List String)} {kana : String}
    {ps : List String} (acc : Int)
    (hlen : kana.toList.length = 1 ∨
      (kana.toList.length = 2 ∧ youonAt kana.toList 1 = true))
    (hps : k2p kana = some ps) :
    acc2hlBody k2p kana acc = some (if acc = 1 then highs ps else lows ps) := by
  rcases hlen with h1 | h2
  · simp only [acc2hlBody]
    rw [if_pos h1]
    by_cases ha : acc = 1
    · rw [if_pos ha, if_pos ha, hps]
      rfl
    · rw [if_neg ha, if_neg ha, hps]
      rfl
  · simp only [acc2hlBody]
    rw [if_neg (by omega : ¬ kana.toList.length = 1), if_pos h2]
    by_cases ha : acc = 1
    · rw [if_pos ha, if_pos ha, hps]
      rfl
    · rw [if_neg ha, if_neg ha, hps]
      rfl

theorem body_flat_plain {k2p : String → Option (List String)} {kana : String}
    {c0 c1 : Char} {A B : List String}
    (hm1 : kana.toList.length ≠ 1)
    (hm2 : ¬(kana.toList.length = 2 ∧ youonAt kana.toList 1 = true))
    (hc0 : kana.toList[0]? = some c0) (hc1 : kana.toList[1]? = some c1)
    (hy : isYouon c1 = false)
    (hA : k2p (String.singleton c0) = some A)
    (hB : k2p (String.mk (kana.toList.drop 1)) = some B) :
    acc2hlBody k2p kana 0 = some (lows A ++ highs B) := by
  simp only [acc2hlBody]
  rw [if_neg hm1, if_neg hm2, if_true]
  simp only [acc2hlFlat, pyGet?_one, pyGet?_zero, hc1, hc0, hy,
    Bool.false_eq_true, if_false, strFrom_one, hA, hB]

theorem body_flat_youon {k2p : String → Option (List String)} {kana : String}
    {c1 : Char} {A B : List String}
    (hm1 : kana.toList.length ≠ 1)
    (hm2 : ¬(kana.toList.length = 2 ∧ youonAt kana.toList 1 = true))
    (hc1 : kana.toList[1]? = some c1) (hy : isYouon c1 = true)
    (hA : k2p (String.mk (kana.toList.take 2)) = some A)
    (hB : k2p (String.mk (kana.toList.drop 2)) = some B) :
    acc2hlBody k2p kana 0 = some (lows A ++ highs B) := by
  simp only [acc2hlBody]
  rw [if_neg hm1, if_neg hm2, if_true]
  simp only [acc2hlFlat, pyGet?_one, hc1, hy, if_true, strSlice_zero_two,
    strFrom_two, hA, hB]

theorem body_one_plain {k2p : String → Option (List String)} {kana : String}
    {c0 c1 : Char} {A B : List String}
    (hm1 : kana.toList.length ≠ 1)
    (hm2 : ¬(kana.toList.length = 2 ∧ youonAt kana.toList 1 = true))
    (hc0 : kana.toList[0]? = some c0) (hc1 : kana.toList[1]? = some c1)
    (hy : isYouon c1 = false)
    (hA : k2p (String.singleton c0) = some A)
    (hB : k2p (String.mk (kana.toList.drop 1)) = some B) :
    acc2hlBody k2p kana 1 = some (highs A ++ lows B) := by
  simp only [acc2hlBody]
  rw [if_neg hm1, if_neg hm2, if_true]
  simp only [acc2hlOne, pyGet?_one, pyGet?_zero, hc1, hc0, hy,
    Bool.false_eq_true, if_false, strFrom_one, hA, hB]
  rw [if_neg (by omega : ¬ (1 : Int) = 0)]

theorem body_one_youon {k2p : String → Option (List String)} {kana : String}
    {c1 : Char} {A B : List String}
    (hm1 : kana.toList.length ≠ 1)
    (hm2 : ¬(kana.toList.length = 2 ∧ youonAt kana.toList 1 = true))
    (hc1 : kana.toList[1]? = some c1) (hy : isYouon c1 = true)
    (hA : k2p (String.mk (kana.toList.take 2)) = some A)
    (hB : k2p (String.mk (kana.toList.drop 2)) = some B) :
    acc2hlBody k2p kana 1 = some (highs A ++ lows B) := by
  simp only [acc2hlBody]
  rw [if_neg hm1, if_neg hm2, if_true]
  simp only [acc2hlOne, pyGet?_one, hc1, hy, if_true, strSlice_zero_two,
    strFrom_two, hA, hB]
  rw [if_neg (by omega : ¬ (1 : Int) = 0)]

theorem body_mid_plain {k2p : String → Option (List String)} {kana : String}
    {c1 cN c0 : Char} {A B C : List String} (n : Nat)
    (hn2 : 2 ≤ n) (hlt : n < kana.toList.length)
    (hc1 : kana.toList[1]? = some c1)
    (hno : ¬(isYouon c1 = true ∧ n = 2))
    (hcN : kana.toList[n]? = some cN) (hyN : isYouon cN = false)
    (hc0 : kana.toList[n - 1]? = some c0)
    (hA : k2p (String.mk (kana.toList.take (n - 1))) = some A)
    (hB : k2p (String.singleton c0) = some B)
    (hC : k2p (String.mk (kana.toList.drop n)) = some C) :
    acc2hlBody k2p kana (n : Int) = some (lows A ++ highs B ++ lows C) := by
  have hm1 : kana.toList.length ≠ 1 := by omega
  have hm2 : ¬(kana.toList.length = 2 ∧ youonAt kana.toList 1 = true) := by
    rintro ⟨h2, _⟩
    omega
  have e1 : (n : Int) - 1 = ((n - 1 : Nat) : Int) := by omega
  have hnoI : ¬(isYouon c1 = true ∧ (n : Int) = 2) := by
    rintro ⟨hy2, he⟩
    exact hno ⟨hy2, by omega⟩
  simp only [acc2hlBody]
  rw [if_neg hm1, if_neg hm2,
    if_neg (by omega : ¬ (n : Int) = 0), if_neg (by omega : ¬ (n : Int) = 1),
    if_pos (by exact_mod_cast hlt)]
  simp only [acc2hlMid, pyGet?_one, hc1]
  rw [if_neg hnoI]
  rw [e1, pyGet?_natCast, pyGet?_natCast, strSlice_zero_natCast,
    strFrom_natCast]
  simp only [hcN, hyN, Bool.false_eq_true, if_false, hc0, hA, hB, hC]

theorem body_mid_youon2 {k2p : String → Option (List String)} {kana : String}
    {c1 c2 : Char} {A B C : List String}
    (hlt : 2 < kana.toList.length)
    (hc1 : kana.toList[1]? = some c1) (hy : isYouon c1 = true)
    (hc2 : kana.toList[2]? = some c2)
    (hA : k2p (String.mk (kana.toList.take 2)) = some A)
    (hB : k2p (String.singleton c2) = some B)
    (hC : k2p (String.mk (kana.toList.drop 3)) = some C) :
    acc2hlBody k2p kana 2 = some (lows A ++ highs B ++ lows C) := by
  have hm1 : kana.toList.length ≠ 1 := by omega
  have hm2 : ¬(kana.toList.length = 2 ∧ youonAt kana.toList 1 = true) := by
    rintro ⟨h2, _⟩
    omega
  simp only [acc2hlBody]
  rw [if_neg hm1, if_neg hm2,
    if_neg (by omega : ¬ (2 : Int) = 0), if_neg (by omega : ¬ (2 : Int) = 1),
    if_pos (by exact_mod_cast hlt)]
  simp only [acc2hlMid, pyGet?_one, pyGet?_two, hc1, hy, and_self, if_true,
    hc2, strSlice_zero_two, strFrom_three, hA, hB, hC]

theorem body_mid_youonN {k2p : String → Option (List String)} {kana : String}
    {c1 cN : Char} {A B C : List String} (n : Nat)
    (hn2 : 2 ≤ n) (hlt : n < kana.toList.length)
    (hc1 : kana.toList[1]? = some c1)
    (hno : ¬(isYouon c1 = true ∧ n = 2))
    (hcN : kana.toList[n]? = some cN) (hyN : isYouon cN = true)
    (hA : k2p (String.mk (kana.toList.take (n - 1))) = some A)
    (hB : k2p (String.mk ((kana.toList.take (n + 1)).drop (n - 1))) = some B)
    (hC : k2p (String.mk (kana.toList.drop (n + 1))) = some C) :
    acc2hlBody k2p kana (n : Int) = some (lows A ++ highs B ++ lows C) := by
  have hm1 : kana.toList.length ≠ 1 := by omega
  have hm2 : ¬(kana.toList.length = 2 ∧ youonAt kana.toList 1 = true) := by
    rintro ⟨h2, _⟩
    omega
  have e1 : (n : Int) - 1 = ((n - 1 : Nat) : Int) := by omega
  have e2 : (n : Int) + 1 = ((n + 1 : Nat) : Int) := by omega
  have hnoI : ¬(isYouon c1 = true ∧ (n : Int) = 2) := by
    rintro ⟨hy2, he⟩
    exact hno ⟨hy2, by omega⟩
  simp only [acc2hlBody]
  rw [if_neg hm1, if_neg hm2,
    if_neg (by omega : ¬ (n : Int) = 0), if_neg (by omega : ¬ (n : Int) = 1),
    if_pos (by exact_mod_cast hlt)]
  simp only [acc2hlMid, pyGet?_one, hc1]
  rw [if_neg hnoI]
  rw [e1, e2, pyGet?_natCast, strSlice_natCast, strSlice_zero_natCast,
    strFrom_natCast]
  simp only [hcN, hyN, if_true, hA, hB, hC]

theorem body_last {k2p : String → Option (List String)} {kana : String}
    {c0 : Char} {A B : List String} (n : Nat)
    (hn2 : 2 ≤ n) (hlen : kana.toList.length = n)
    (hm2 : ¬(kana.toList.length = 2 ∧ youonAt kana.toList 1 = true))
    (hc0 : kana.toList[n - 1]? = some c0)
    (hA : k2p (String.mk (kana.toList.take (n - 1))) = some A)
    (hB : k2p (String.singleton c0) = some B) :
    acc2hlBody k2p kana (n : Int) = some (lows A ++ highs B) := by
  have hm1 : kana.toList.length ≠ 1 := by omega
  have e1 : (n : Int) - 1 = ((n - 1 : Nat) : Int) := by omega
  simp only [acc2hlBody]
  rw [if_neg hm1, if_neg hm2,
    if_neg (by omega : ¬ (n : Int) = 0), if_neg (by omega : ¬ (n : Int) = 1),
    if_neg (by rw [hlen]; omega : ¬ (n : Int) < (kana.toList.length : Int)),
    if_pos (by rw [hlen] : (n : Int) = (kana.toList.length : Int))]
  simp only [acc2hlLast]
  rw [e1, pyGet?_natCast, strSlice_zero_natCast]
  simp only [hc0, hA, hB]

theorem body_over {k2p : String → Option (List String)} {kana : String}
    (acc : Int)
    (hm1 : kana.toList.length ≠ 1)
    (hm2 : ¬(kana.toList.length = 2 ∧ youonAt kana.toList 1 = true))
    (h0 : acc ≠ 0) (h1 : acc ≠ 1)
    (hgt : (kana.toList.length : Int) < acc) :
    acc2hlBody k2p kana acc = some [] := by
  simp only [acc2hlBody]
  rw [if_neg hm1, if_neg hm2, if_neg h0, if_neg h1,
    if_neg (by omega : ¬ acc < (kana.toList.length : Int)),
    if_neg (by omega : ¬ acc = (kana.toList.length : Int))]

/-- C9 (amended): `__convert_acc2hl` produces a binary high/low run with
these semantics: the sentinels `ALL_H` / `ALL_L` give uniformly high /
low runs of length equal to the reading's phoneme count; a one-mora
reading (or a two-mora reading whose second character is a glide, which
counts as a single unit) is uniformly high for nucleus 1 and uniformly
low otherwise; accent 0 (flat) gives low on the first unit and high from
the second unit onward; nucleus 1 gives high on the first unit and low
afterwards; a nucleus k with 2 ≤ k < mora count gives low everywhere
except high exactly on the nucleus unit (not on units 1..k), with
glide-digraph adjustments for a second-character glide with nucleus 2
and for a glide directly after the nucleus; a nucleus on the final mora
gives low before it and high on it; and in every case the run is the
concatenation of the per-slice phoneme conversions, so its length is
the total phoneme count of the converted slices. -/
theorem c9_convert_acc2hl_corrected (k2p : String → Option (List String))
    (kana accent : String) :
    (∀ ps, k2p kana = some ps → accent = "ALL_H" →
      convert_acc2hl k2p kana accent = some (highs ps) ∧
      (highs ps).length = ps.length) ∧
    (∀ ps, k2p kana = some ps → accent = "ALL_L" →
      convert_acc2hl k2p kana accent = some (lows ps) ∧
      (lows ps).length = ps.length) ∧
    (∀ acc : Int, pyInt? accent = some acc →
      ((kana.toList.length = 1 ∨
          (kana.toList.length = 2 ∧ youonAt kana.toList 1 = true)) →
        ∀ ps, k2p kana = some ps →
        convert_acc2hl k2p kana accent =
          some (if acc = 1 then highs ps else lows ps)) ∧
      (∀ c0 c1 A B, kana.toList.length ≠ 1 →
        ¬(kana.toList.length = 2 ∧ youonAt kana.toList 1 = true) →
        kana.toList[0]? = some c0 → kana.toList[1]? = some c1 →
        isYouon c1 = false →
        k2p (String.singleton c0) = some A →
        k2p (String.mk (kana.toList.drop 1)) = some B →
        (acc = 0 →
          convert_acc2hl k2p kana accent = some (lows A ++ highs B)) ∧
        (acc = 1 →
          convert_acc2hl k2p kana accent = some (highs A ++ lows B))) ∧
      (∀ c1 A B, kana.toList.length ≠ 1 →
        ¬(kana.toList.length = 2 ∧ youonAt kana.toList 1 = true) →
        kana.toList[1]? = some c1 → isYouon c1 = true →
        k2p (String.mk (kana.toList.take 2)) = some A →
        k2p (String.mk (kana.toList.drop 2)) = some B →
        (acc = 0 →
          convert_acc2hl k2p kana accent = some (lows A ++ highs B)) ∧
        (acc = 1 →
          convert_acc2hl k2p kana accent = some (highs A ++ lows B))) ∧
      (∀ (n : Nat) c1 cN c0 A B C, acc = (n : Int) →
        2 ≤ n → n < kana.toList.length →
        kana.toList[1]? = some c1 → ¬(isYouon c1 = true ∧ n = 2) →
        kana.toList[n]? = some cN → isYouon cN = false →
        kana.toList[n - 1]? = some c0 →
        k2p (String.mk (kana.toList.take (n - 1))) = some A →
        k2p (String.singleton c0) = some B →
        k2p (String.mk (kana.toList.drop n)) = some C →
        convert_acc2hl k2p kana accent =
          some (lows A ++ highs B ++ lows C)) ∧
      (∀ c1 c2 A B C, acc = 2 → 2 < kana.toList.length →
        kana.toList[1]? = some c1 → isYouon c1 = true →
        kana.toList[2]? = some c2 →
        k2p (String.mk (kana.toList.take 2)) = some A →
        k2p (String.singleton c2) = some B →
        k2p (String.mk (kana.toList.drop 3)) = some C →
        convert_acc2hl k2p kana accent =
          some (lows A ++ highs B ++ lows C)) ∧
      (∀ (n : Nat) c1 cN A B C, acc = (n : Int) →
        2 ≤ n → n < kana.toList.length →
        kana.toList[1]? = some c1 → ¬(isYouon c1 = true ∧ n = 2) →
        kana.toList[n]? = some cN → isYouon cN = true →
        k2p (String.mk (kana.toList.take (n - 1))) = some A →
        k2p (String.mk ((kana.toList.take (n + 1)).drop (n - 1))) = some B →
        k2p (String.mk (kana.toList.drop (n + 1))) = some C →
        convert_acc2hl k2p kana accent =
          some (lows A ++ highs B ++ lows C)) ∧
      (∀ (n : Nat) c0 A B, acc = (n : Int) →
        2 ≤ n → kana.toList.length = n →
        ¬(kana.toList.length = 2 ∧ youonAt kana.toList 1 = true) →
        kana.toList[n - 1]? = some c0 →
        k2p (String.mk (kana.toList.take (n - 1))) = some A →
        k2p (String.singleton c0) = some B →
        convert_acc2hl k2p kana accent = some (lows A ++ highs B)) ∧
      (kana.toList.length ≠ 1 →
        ¬(kana.toList.length = 2 ∧ youonAt kana.toList 1 = true) →
        acc ≠ 0 → acc ≠ 1 → (kana.toList.length : Int) < acc →
        convert_acc2hl k2p kana accent = some [])) := by
  refine ⟨?_, ?_, ?_⟩
  · intro ps hps hacc
    subst hacc
    unfold convert_acc2hl
    rw [if_pos rfl, hps]
    exact ⟨rfl, by simp [highs]⟩
  · intro ps hps hacc
    subst hacc
    unfold convert_acc2hl
    rw [if_neg (by decide), if_pos rfl, hps]
    exact ⟨rfl, by simp [lows]⟩
  · intro acc hacc
    have hpar := convert_acc2hl_parse k2p kana accent acc hacc
    refine ⟨?_, ?_, ?_, ?_, ?_, ?_, ?_, ?_⟩
    · intro hlen ps hps
      rw [hpar]
      exact body_uniform acc hlen hps
    · intro c0 c1 A B hm1 hm2 hc0 hc1 hy hA hB
      constructor
      · intro h0; subst h0
        rw [hpar]
        exact body_flat_plain hm1 hm2 hc0 hc1 hy hA hB
      · intro h1; subst h1
        rw [hpar]
        exact body_one_plain hm1 hm2 hc0 hc1 hy hA hB
    · intro c1 A B hm1 hm2 hc1 hy hA hB
      constructor
      · intro h0; subst h0
        rw [hpar]
        exact body_flat_youon hm1 hm2 hc1 hy hA hB
      · intro h1; subst h1
        rw [hpar]
        exact body_one_youon hm1 hm2 hc1 hy hA hB
    · intro n c1 cN c0 A B C hn hn2 hlt hc1 hno hcN hyN hc0 hA hB hC
      subst hn
      rw [hpar]
      exact body_mid_plain n hn2 hlt hc1 hno hcN hyN hc0 hA hB hC
    · intro c1 c2 A B C hn hlt hc1 hy hc2 hA hB hC
      subst hn
      rw [hpar]
      exact body_mid_youon2 hlt hc1 hy hc2 hA hB hC
    · intro n c1 cN A B C hn hn2 hlt hc1 hno hcN hyN hA hB hC
      subst hn
      rw [hpar]
      exact body_mid_youonN n hn2 hlt hc1 hno hcN hyN hA hB hC
    · intro n c0 A B hn hn2 hlen hm2 hc0 hA hB
      subst hn
      rw [hpar]
      exact body_last n hn2 hlen hm2 hc0 hA hB
    · intro hm1 hm2 h0 h1 hgt
      rw [hpar]
      exact body_over acc hm1 hm2 h0 h1 hgt

theorem c9_witness :
    convert_acc2hl k2pMini "カキ" "0" = some ["0", "0", "1", "1"] := by
  have hacc : pyInt? "0" = some 0 := by decide
  have h := ((c9_convert_acc2hl_corrected k2pMini "カキ" "0").2.2 0 hacc).2.1
    'カ' 'キ' ["k", "a"] ["k", "i"]
    (by decide) (by decide) (by decide) (by decide) (by decide)
    (by decide) (by decide)
  exact h.1 rfl

/-! ### `update_yomi` (g2p.py lines 209-335)

The fugashi re-tokenization (`__fugashi_sep_kata`, an external tagger),
the yomikata homograph patch (an external model) and the dialect /
keihan patches are earlier stages whose combined output is the triple
`(word_list, kana_list, accent_list)`; they are modelled as universally
quantified inputs, which subsumes the concrete stages.  The final
standard-language test `hougen_mode == "tokyo"` is modelled by the
boolean `hougen_is_tokyo` (note the declared type of `hougen_mode` is
`list[...] | None`, for which the comparison with the string `"tokyo"`
is always false).  The `assert` is modelled as `none`. -/

/-- The accent conversion loop of `update_yomi` (lines 300-305):
`accent_list[num1]` raises when `accent_list` is shorter. -/
def accentHlList (k2p : String → Option (List String)) :
    List String → List String → Option (List String)
  | [], _ => some []
  | k :: ks, accs =>
    match accs with
    | [] => none
    | a :: rest =>
      match convert_acc2hl k2p k a, accentHlList k2p ks rest with
      | some hl, some tl => some (hl ++ tl)
      | _, _ => none

/-- `update_yomi` from the source (from the patched analysis lists on). -/
def update_yomi (k2p : String → Option (List String))
    (sep_text sep_kata : List String) (sep_phonemes : List (List String))
    (phone_w_punct : List String) (phone_tone_list : List (String × Int))
    (word_list kana_list accent_list : List String)
    (hougen_is_tokyo : Bool) :
    Option (List String × List String × List (List String) ×
      List (String × Int)) :=
  match accentHlList k2p kana_list accent_list with
  | none => none
  | some accent_hl =>
    match omap k2p kana_list with
    | none => none
    | some kps =>
      match handle_long kps with
      | none => none
      | some new_sep_phonemes =>
        let new_phone_w_punct := new_sep_phonemes.flatten
        if accent_hl.length = new_phone_w_punct.length then
          match omap pyInt? accent_hl with
          | none => none
          | some tones =>
            if hougen_is_tokyo ∧ phone_w_punct = new_phone_w_punct ∧
                kana_list.length = sep_kata.length then
              some (sep_text, sep_kata, sep_phonemes, phone_tone_list)
            else
              some (word_list, kana_list, new_sep_phonemes,
                new_phone_w_punct.zip tones)
        else none

/-- C8 counterexample: the pass is enabled, its concatenated phonemes
equal the standard pass's (`["a"]`) and its token count equals the
standard's (1 = 1), yet with `hougen_mode = None` (so the `"tokyo"` test
fails) `update_yomi` replaces the standard text by the fugashi one
instead of keeping it. -/
theorem c8_counterexample :
    update_yomi k2pMini ["あ"] ["ア"] [["a"]] ["a"] [("a", 0)]
      ["y"] ["ア"] ["0"] false =
      some (["y"], ["ア"], [["a"]], [("a", 0)]) ∧
    ([["a"]] : List (List String)).flatten = ["a"] ∧
    (["ア"] : List String).length = (["ア"] : List String).length ∧
    (["y"] : List String) ≠ ["あ"] := by
  exact ⟨by decide, by decide, rfl, by decide⟩

/-- C8 (amended): on success `update_yomi` keeps the standard text,
readings, phonemes and tones exactly when the `"tokyo"` test holds AND
the pass's concatenated phonemes equal the standard's AND the token
counts agree; in every other case (in particular whenever the `"tokyo"`
test fails, even for identical phonemes and counts) the pass's text,
readings, phonemes and tones — the zip of its concatenated phonemes with
the fugashi accent run — fully replace the standard ones. -/
theorem c8_update_yomi_corrected
    (k2p : String → Option (List String))
    (sep_text sep_kata : List String) (sep_phonemes : List (List String))
    (phone_w_punct : List String) (phone_tone_list : List (String × Int))
    (word_list kana_list accent_list : List String)
    (hougen_is_tokyo : Bool)
    (r : List String × List String × List (List String) ×
      List (String × Int))
    (h : update_yomi k2p sep_text sep_kata sep_phonemes phone_w_punct
      phone_tone_list word_list kana_list accent_list hougen_is_tokyo =
      some r) :
    ∀ kps nsp accent_hl tones,
      omap k2p kana_list = some kps → handle_long kps = some nsp →
      accentHlList k2p kana_list accent_list = some accent_hl →
      omap pyInt? accent_hl = some tones →
      ((hougen_is_tokyo = true ∧ phone_w_punct = nsp.flatten ∧
          kana_list.length = sep_kata.length) →
        r = (sep_text, sep_kata, sep_phonemes, phone_tone_list)) ∧
      (¬(hougen_is_tokyo = true ∧ phone_w_punct = nsp.flatten ∧
          kana_list.length = sep_kata.length) →
        r = (word_list, kana_list, nsp, nsp.flatten.zip tones)) := by
  intro kps nsp accent_hl tones hkps hnsp hhl htones
  unfold update_yomi at h
  simp only [hhl, hkps, hnsp] at h
  by_cases hlen : accent_hl.length = nsp.flatten.length
  · rw [if_pos hlen] at h
    simp only [htones] at h
    by_cases hcond : hougen_is_tokyo = true ∧
        phone_w_punct = nsp.flatten ∧
        kana_list.length = sep_kata.length
    · rw [if_pos hcond] at h
      cases h
      exact ⟨fun _ => rfl, fun hn => absurd hcond hn⟩
    · rw [if_neg hcond] at h
      cases h
      exact ⟨fun hc => absurd hc hcond, fun _ => rfl⟩
  · rw [if_neg hlen] at h
    cases h

theorem c8_witness :
    update_yomi k2pMini ["あ"] ["ア"] [["a"]] ["a"] [("a", 0)]
      ["y"] ["ア"] ["0"] true =
      some (["あ"], ["ア"], [["a"]], [("a", 0)]) := by
  have h : update_yomi k2pMini ["あ"] ["ア"] [["a"]] ["a"] [("a", 0)]
      ["y"] ["ア"] ["0"] true =
      some (["あ"], ["ア"], [["a"]], [("a", 0)]) := by decide
  have hc := c8_update_yomi_corrected k2pMini ["あ"] ["ア"] [["a"]] ["a"]
    [("a", 0)] ["y"] ["ア"] ["0"] true
    (["あ"], ["ア"], [["a"]], [("a", 0)]) h [["a"]] [["a"]] ["0"] [0]
    (by decide) (by decide) (by decide) (by decide)
  have := hc.1 ⟨rfl, by decide, rfl⟩
  exact h

theorem mem_lows {s : String} {A : List String} (h : s ∈ lows A) : s = "0" := by
  obtain ⟨x, _, hx⟩ := List.mem_map.1 h
  exact hx.symm

theorem mem_highs {s : String} {A : List String} (h : s ∈ highs A) :
    s = "1" := by
  obtain ⟨x, _, hx⟩ := List.mem_map.1 h
  exact hx.symm

theorem acc2hlFlat_vals {k2p : String → Option (List String)}
    {ks : List Char} {r : List String} (h : acc2hlFlat k2p ks = some r) :
    ∀ s ∈ r, s = "0" ∨ s = "1" := by
  unfold acc2hlFlat at h
  repeat' split at h
  all_goals (try cases h)
  all_goals intro s hs
  all_goals rcases List.mem_append.1 hs with h1 | h1
  all_goals first
    | exact Or.inl (mem_lows h1)
    | exact Or.inr (mem_highs h1)

theorem acc2hlOne_vals {k2p : String → Option (List String)}
    {ks : List Char} {r : List String} (h : acc2hlOne k2p ks = some r) :
    ∀ s ∈ r, s = "0" ∨ s = "1" := by
  unfold acc2hlOne at h
  repeat' split at h
  all_goals (try cases h)
  all_goals intro s hs
  all_goals rcases List.mem_append.1 hs with h1 | h1
  all_goals first
    | exact Or.inl (mem_lows h1)
    | exact Or.inr (mem_highs h1)

theorem acc2hlMid_vals {k2p : String → Option (List String)}
    {ks : List Char} {acc : Int} {r : List String}
    (h : acc2hlMid k2p ks acc = some r) :
    ∀ s ∈ r, s = "0" ∨ s = "1" := by
  unfold acc2hlMid at h
  repeat' split at h
  all_goals (try cases h)
  all_goals intro s hs
  all_goals rcases List.mem_append.1 hs with h1 | h1
  all_goals try rcases List.mem_append.1 h1 with h1 | h1
  all_goals first
    | exact Or.inl (mem_lows h1)
    | exact Or.inr (mem_highs h1)

theorem acc2hlLast_vals {k2p : String → Option (List String)}
    {ks : List Char} {acc : Int} {r : List String}
    (h : acc2hlLast k2p ks acc = some r) :
    ∀ s ∈ r, s = "0" ∨ s = "1" := by
  unfold acc2hlLast at h
  repeat' split at h
  all_goals (try cases h)
  all_goals intro s hs
  all_goals rcases List.mem_append.1 hs with h1 | h1
  all_goals first
    | exact Or.inl (mem_lows h1)
    | exact Or.inr (mem_highs h1)

theorem acc2hlBody_vals {k2p : String → Option (List String)}
    {kana : String} {acc : Int} {r : List String}
    (h : acc2hlBody k2p kana acc = some r) :
    ∀ s ∈ r, s = "0" ∨ s = "1" := by
  simp only [acc2hlBody] at h
  repeat' split at h
  all_goals first
    | exact acc2hlFlat_vals h
    | exact acc2hlOne_vals h
    | exact acc2hlMid_vals h
    | exact acc2hlLast_vals h
    | (cases h; intro s hs; cases hs)
    | (obtain ⟨ps, hps, rfl⟩ := Option.map_eq_some'.1 h
       intro s hs
       first
         | exact Or.inl (mem_lows hs)
         | exact Or.inr (mem_highs hs))

theorem convert_acc2hl_vals {k2p : String → Option (List String)}
    {kana accent : String} {r : List String}
    (h : convert_acc2hl k2p kana accent = some r) :
    ∀ s ∈ r, s = "0" ∨ s = "1" := by
  unfold convert_acc2hl at h
  split at h
  · obtain ⟨ps, hps, rfl⟩ := Option.map_eq_some'.1 h
    intro s hs
    exact Or.inr (mem_highs hs)
  · split at h
    · obtain ⟨ps, hps, rfl⟩ := Option.map_eq_some'.1 h
      intro s hs
      exact Or.inl (mem_lows hs)
    · split at h
      · cases h
      · exact acc2hlBody_vals h

theorem accentHlList_vals {k2p : String → Option (List String)} :
    ∀ (ks accs : List String) (r : List String),
      accentHlList k2p ks accs = some r → ∀ s ∈ r, s = "0" ∨ s = "1" := by
  intro ks
  induction ks with
  | nil =>
    intro accs r h
    cases h
    intro s hs
    cases hs
  | cons k ks' ih =>
    intro accs r h
    unfold accentHlList at h
    cases accs with
    | nil => cases h
    | cons a rest =>
      cases hc : convert_acc2hl k2p k a with
      | none => simp only [hc] at h; cases h
      | some hl =>
        cases hr : accentHlList k2p ks' rest with
        | none => simp only [hc, hr] at h; cases h
        | some tl =>
          simp only [hc, hr, Option.some.injEq] at h
          subst h
          intro s hs
          rcases List.mem_append.1 hs with h1 | h1
          · exact convert_acc2hl_vals hc s h1
          · exact ih rest tl hr s h1

theorem omap_mem {f : α → Option β} :
    ∀ (l : List α) (r : List β), omap f l = some r →
      ∀ y ∈ r, ∃ x ∈ l, f x = some y := by
  intro l
  induction l with
  | nil =>
    intro r h
    cases h
    intro y hy
    cases hy
  | cons x xs ih =>
    intro r h
    unfold omap at h
    cases hf : f x with
    | none => rw [hf] at h; cases h
    | some y0 =>
      cases hrest : omap f xs with
      | none => rw [hf, hrest] at h; cases h
      | some ys =>
        rw [hf, hrest] at h
        cases h
        intro y hy
        rcases List.mem_cons.1 hy with h1 | h1
        · exact ⟨x, List.mem_cons_self x xs, by rw [hf, h1]⟩
        · obtain ⟨x', hx', hfx'⟩ := ih ys hrest y h1
          exact ⟨x', List.mem_cons_of_mem x hx', hfx'⟩

theorem pyInt?_zero_or_one {s : String} (h : s = "0" ∨ s = "1") :
    pyInt? s = some 0 ∨ pyInt? s = some 1 := by
  rcases h with h | h
  · left; rw [h]; decide
  · right; rw [h]; decide

/-- On success, every tone of `update_yomi`'s output phone/tone list is
0 or 1, provided the standard list's tones already are. -/
theorem update_yomi_tones {k2p : String → Option (List String)}
    {sep_text sep_kata : List String} {sep_phonemes : List (List String)}
    {phone_w_punct : List String} {phone_tone_list : List (String × Int)}
    {word_list kana_list accent_list : List String}
    {hougen_is_tokyo : Bool}
    {r : List String × List String × List (List String) ×
      List (String × Int)}
    (h : update_yomi k2p sep_text sep_kata sep_phonemes phone_w_punct
      phone_tone_list word_list kana_list accent_list hougen_is_tokyo =
      some r)
    (hstd : ∀ pr ∈ phone_tone_list, pr.2 = 0 ∨ pr.2 = 1) :
    ∀ pr ∈ r.2.2.2, pr.2 = 0 ∨ pr.2 = 1 := by
  unfold update_yomi at h
  cases hhl : accentHlList k2p kana_list accent_list with
  | none => rw [hhl] at h; cases h
  | some accent_hl =>
    rw [hhl] at h
    cases hkps : omap k2p kana_list with
    | none => simp only [hkps] at h; cases h
    | some kps =>
      simp only [hkps] at h
      cases hnsp : handle_long kps with
      | none => simp only [hnsp] at h; cases h
      | some nsp =>
        simp only [hnsp] at h
        by_cases hlen : accent_hl.length = nsp.flatten.length
        · rw [if_pos hlen] at h
          cases htones : omap pyInt? accent_hl with
          | none => simp only [htones] at h; cases h
          | some tones =>
            simp only [htones] at h
            have htone01 : ∀ t ∈ tones, t = 0 ∨ t = 1 := by
              intro t ht
              obtain ⟨s, hsmem, hps⟩ := omap_mem accent_hl tones htones t ht
              have hv := accentHlList_vals kana_list accent_list accent_hl
                hhl s hsmem
              rcases pyInt?_zero_or_one hv with h0 | h0
              · rw [h0] at hps; cases hps; left; rfl
              · rw [h0] at hps; cases hps; right; rfl
            split at h
            · cases h
              exact hstd
            · cases h
              intro pr hpr
              have := List.of_mem_zip hpr
              exact htone01 pr.2 this.2
        · rw [if_neg hlen] at h
          cases h

/-! ### `g2p` (g2p.py lines 21-143)

The main entry point.  Its external collaborators are modelled as
universally quantified inputs: `prosodies` (the prosody symbol stream of
`__pyopenjtalk_g2p_prosody`), `sep_text`/`sep_kata` (the word split of
`text_to_sep_kata`, built on `pyopenjtalk.run_frontend`), `tokenize`
(the BERT tokenizer), `k2p` (`__kata_to_phoneme_list`, built on the
mora table that is not under `src/`), and the fugashi analysis lists
plus the tokyo flag for the optional `update_yomi` pass.  The final
`assert len(phones) == sum(word2ph)` is modelled as a guard. -/

def g2p (k2p : String → Option (List String)) (tokenize : String → List String)
    (prosodies sep_text sep_kata : List String)
    (use_jp_extra use_unidic3 : Bool)
    (word_list kana_list accent_list : List String)
    (hougen_is_tokyo : Bool) :
    Option (List String × List Int × List Nat) :=
  match g2phone_tone_wo_punct prosodies with
  | none => none
  | some ptl_wo =>
    match omap k2p sep_kata with
    | none => none
    | some kps =>
      match handle_long kps with
      | none => none
      | some sep_phonemes =>
        let phone_w_punct := sep_phonemes.flatten
        match align_tones phone_w_punct ptl_wo with
        | none => none
        | some ptl =>
          match (if use_unidic3 then
              update_yomi k2p sep_text sep_kata sep_phonemes phone_w_punct
                ptl word_list kana_list accent_list hougen_is_tokyo
            else some (sep_text, sep_kata, sep_phonemes, ptl)) with
          | none => none
          | some (sep_text2, _sep_kata2, sep_phonemes2, ptl2) =>
            let sep_tokenized := sep_text2.map
              (fun i => if i ∈ PUNCTUATIONS then [i] else tokenize i)
            match omap (fun p => distribute_phone p.2.length p.1.length)
                (sep_tokenized.zip sep_phonemes2) with
            | none => none
            | some w2p_parts =>
              let word2ph := 1 :: w2p_parts.flatten ++ [1]
              let ptl3 := ("_", (0 : Int)) :: ptl2 ++ [("_", 0)]
              let phones := ptl3.map Prod.fst
              let tones := ptl3.map Prod.snd
              if phones.length = word2ph.sum then
                some ((if use_jp_extra then phones
                  else phones.map (fun p => if p = "N" then "n" else p)),
                  tones, word2ph)
              else none

theorem head_getLast_map_pad (ptl2 : List (String × Int)) :
    ((("_", (0 : Int)) :: ptl2 ++ [("_", 0)]).map Prod.fst).head? =
      some "_" ∧
    ((("_", (0 : Int)) :: ptl2 ++ [("_", 0)]).map Prod.fst).getLast? =
      some "_" ∧
    ((("_", (0 : Int)) :: ptl2 ++ [("_", 0)]).map Prod.snd).head? =
      some 0 ∧
    ((("_", (0 : Int)) :: ptl2 ++ [("_", 0)]).map Prod.snd).getLast? =
      some 0 := by
  have he : (("_", (0 : Int)) :: ptl2 ++ [("_", 0)]) =
      ((("_", (0 : Int)) :: ptl2) ++ [("_", 0)]) := rfl
  refine ⟨rfl, ?_, rfl, ?_⟩
  · rw [he, List.map_append]
    exact List.getLast?_concat _
  · rw [he, List.map_append]
    exact List.getLast?_concat _

theorem head_map_N {l : List String} (h : l.head? = some "_") :
    (l.map (fun p => if p = "N" then "n" else p)).head? = some "_" := by
  cases l with
  | nil => cases h
  | cons a t =>
    simp only [List.head?_cons, Option.some.injEq] at h
    subst h
    rfl

theorem getLast_map_N {l : List String} (h : l.getLast? = some "_") :
    (l.map (fun p => if p = "N" then "n" else p)).getLast? = some "_" := by
  induction l with
  | nil => cases h
  | cons a t ih =>
    cases t with
    | nil =>
      simp only [List.getLast?_singleton, Option.some.injEq] at h
      subst h
      rfl
    | cons b t' =>
      rw [List.getLast?_cons_cons] at h
      have := ih h
      simpa [List.getLast?_cons_cons] using this

/-- C1: for every successful call of `g2p` (over arbitrary collaborator
outputs), the returned phones and tones have equal length, the word2ph
entries sum to that length, phones begins and ends with the boundary
phoneme `"_"`, tones begins and ends with 0, word2ph begins and ends
with 1, and every tone is 0 or 1. -/
theorem c1_g2p_invariants
    (k2p : String → Option (List String)) (tokenize : String → List String)
    (prosodies sep_text sep_kata : List String)
    (use_jp_extra use_unidic3 : Bool)
    (word_list kana_list accent_list : List String) (hougen_is_tokyo : Bool)
    (phones : List String) (tones : List Int) (word2ph : List Nat)
    (h : g2p k2p tokenize prosodies sep_text sep_kata use_jp_extra
      use_unidic3 word_list kana_list accent_list hougen_is_tokyo =
      some (phones, tones, word2ph)) :
    phones.length = tones.length ∧
    word2ph.sum = phones.length ∧
    phones.head? = some "_" ∧ phones.getLast? = some "_" ∧
    tones.head? = some 0 ∧ tones.getLast? = some 0 ∧
    word2ph.head? = some 1 ∧ word2ph.getLast? = some 1 ∧
    (∀ t ∈ tones, t = 0 ∨ t = 1) := by
  unfold g2p at h
  cases hwo : g2phone_tone_wo_punct prosodies with
  | none => rw [hwo] at h; cases h
  | some ptl_wo =>
    rw [hwo] at h
    cases hkps : omap k2p sep_kata with
    | none => simp only [hkps] at h; cases h
    | some kps =>
      simp only [hkps] at h
      cases hsp : handle_long kps with
      | none => simp only [hsp] at h; cases h
      | some sep_phonemes =>
        simp only [hsp] at h
        cases hal : align_tones sep_phonemes.flatten ptl_wo with
        | none => simp only [hal] at h; cases h
        | some ptl =>
          simp only [hal] at h
          have hptl_tone : ∀ pr ∈ ptl, pr.2 = 0 ∨ pr.2 = 1 := by
            intro pr hpr
            rcases (alignGo_spec ptl_wo sep_phonemes.flatten 0 ptl hal).2
              pr hpr with h0 | hmem
            · exact Or.inl h0
            · exact g2phone_tone_wo_punct_tones hwo pr hmem
          cases hup : (if use_unidic3 then
              update_yomi k2p sep_text sep_kata sep_phonemes
                sep_phonemes.flatten ptl word_list kana_list accent_list
                hougen_is_tokyo
            else some (sep_text, sep_kata, sep_phonemes, ptl)) with
          | none => rw [hup] at h; cases h
          | some r4 =>
            rw [hup] at h
            have hr4_tone : ∀ pr ∈ r4.2.2.2, pr.2 = 0 ∨ pr.2 = 1 := by
              cases use_unidic3 with
              | false =>
                rw [if_neg (by simp)] at hup
                cases hup
                exact hptl_tone
              | true =>
                rw [if_pos rfl] at hup
                exact update_yomi_tones hup hptl_tone
            obtain ⟨t2, k2, p2, ptl2⟩ := r4
            simp only at hr4_tone
            cases hw2p : omap (fun p => distribute_phone p.2.length p.1.length)
                ((t2.map (fun i => if i ∈ PUNCTUATIONS then [i]
                  else tokenize i)).zip p2) with
            | none => simp only [hw2p] at h; cases h
            | some w2p_parts =>
              simp only [hw2p] at h
              by_cases hlen : ((("_", (0 : Int)) :: ptl2 ++ [("_", 0)]).map
                  Prod.fst).length = (1 :: w2p_parts.flatten ++ [1]).sum
              · rw [if_pos hlen] at h
                cases h
                obtain ⟨hh1, hh2, hh3, hh4⟩ := head_getLast_map_pad ptl2
                have hlen2 : ∀ (l : List String),
                    (l.map (fun p => if p = "N" then "n" else p)).length =
                      l.length := by
                  intro l
                  exact List.length_map _ _
                refine ⟨?_, ?_, ?_, ?_, rfl, hh4, rfl, ?_, ?_⟩
                · cases use_jp_extra with
                  | false => simp [List.length_map]
                  | true => simp [List.length_map]
                · cases use_jp_extra with
                  | false =>
                    rw [if_neg (by simp)]
                    rw [hlen2]
                    exact hlen.symm
                  | true =>
                    rw [if_pos rfl]
                    exact hlen.symm
                · cases use_jp_extra with
                  | false =>
                    rw [if_neg (by simp)]
                    exact head_map_N hh1
                  | true =>
                    rw [if_pos rfl]
                    exact hh1
                · cases use_jp_extra with
                  | false =>
                    rw [if_neg (by simp)]
                    exact getLast_map_N hh2
                  | true =>
                    rw [if_pos rfl]
                    exact hh2
                · show (1 :: w2p_parts.flatten ++ [1]).getLast? = some 1
                  have he : (1 :: w2p_parts.flatten ++ [1] : List Nat) =
                      ((1 :: w2p_parts.flatten) ++ [1]) := rfl
                  rw [he]
                  exact List.getLast?_concat _
                · intro t ht
                  obtain ⟨pr, hpr, hprt⟩ := List.mem_map.1 ht
                  rcases List.mem_cons.1 hpr with hb | hrest
                  · subst hb
                    left
                    exact hprt.symm
                  · rcases List.mem_append.1 hrest with hmid | hb2
                    · rw [← hprt]
                      exact hr4_tone pr hmid
                    · left
                      have : pr = ("_", (0 : Int)) := by simpa using hb2
                      rw [← hprt, this]
              · rw [if_neg hlen] at h
                cases h

theorem c1_witness :
    g2p (fun _ => some []) (fun _ => []) [] [] [] true false [] [] [] false =
      some (["_", "_"], [0, 0], [1, 1]) ∧
    (["_", "_"] : List String).length = ([0, 0] : List Int).length ∧
    ([1, 1] : List Nat).sum = (["_", "_"] : List String).length := by
  have h : g2p (fun _ => some []) (fun _ => []) [] [] [] true false
      [] [] [] false = some (["_", "_"], [0, 0], [1, 1]) := rfl
  have hc := c1_g2p_invariants (fun _ => some []) (fun _ => []) [] [] []
    true false [] [] [] false ["_", "_"] [0, 0] [1, 1] h
  exact ⟨h, hc.1, hc.2.1⟩

/-! ### `adjust_word2ph` (g2p.py lines 1069-1270)

Repairs `word2ph` against a caller-supplied phoneme sequence via an
LCS-based diff, a replay pass, and two bounded redistribution sweeps.
The boundary dummies are stripped with Python's `l[1:-1]`.  The
`assert len(given_phone) == sum(adjusted_word2ph)` is modelled as a
guard returning `none` on failure.  The two imperative sweep loops are
modelled with an explicit fuel argument equal to the list length, which
strictly dominates the number of iterations of the Python loops, whose
stopping conditions are re-checked inside. -/

/-- One row of the DP table `L` of `longest_common_subsequence`, given
the previous row as a function (`prev j` is `L[i][j]`): the entry
`L[i+1][j+1]` is `L[i][j] + 1` on a match and otherwise the max of
`L[i][j+1]` and `L[i+1][j]`, exactly the table-filling recurrence. -/
def lcsRow (X Y : List String) (prev : Nat → Nat) (i : Nat) : Nat → Nat
  | 0 => 0
  | j + 1 =>
    if X.getD i "" = Y.getD j "" then prev j + 1
    else max (prev (j + 1)) (lcsRow X Y prev i j)

/-- The DP table `L` of `longest_common_subsequence`: `lcsL X Y i j` is
`L[i][j]`, defined row by row by the recurrence the table construction
uses (see `lcsL_succ_succ`). -/
def lcsL (X Y : List String) : Nat → Nat → Nat
  | 0 => fun _ => 0
  | i + 1 => lcsRow X Y (lcsL X Y i) i

/-- One row of the traceback of `longest_common_subsequence`, given the
traceback from the previous row as a function. -/
def pairsRow (X Y : List String) (prev : Nat → List (Nat × Nat)) (i : Nat) :
    Nat → List (Nat × Nat)
  | 0 => []
  | j + 1 =>
    if X.getD i "" = Y.getD j "" then prev j ++ [(i, j)]
    else if lcsL X Y i (j + 1) ≥ lcsL X Y (i + 1) j then prev (j + 1)
    else pairsRow X Y prev i j

/-- The traceback of `longest_common_subsequence`, built directly in
increasing order (the source appends pairs downward and then reverses
the list); see `pairsAux_succ_succ` for the step it takes at `(i, j)`. -/
def pairsAux (X Y : List String) : Nat → Nat → List (Nat × Nat)
  | 0 => fun _ => []
  | i + 1 => pairsRow X Y (pairsAux X Y i) i

/-- `longest_common_subsequence` from the source: the index pairs of one
longest common subsequence, in increasing order. -/
def longest_common_subsequence (X Y : List String) : List (Nat × Nat) :=
  pairsAux X Y X.length Y.length

theorem lcsL_zero_left (X Y : List String) (j : Nat) : lcsL X Y 0 j = 0 := rfl

theorem lcsL_zero_right (X Y : List String) (i : Nat) : lcsL X Y i 0 = 0 := by
  cases i <;> rfl

theorem lcsL_succ_succ (X Y : List String) (i j : Nat) :
    lcsL X Y (i + 1) (j + 1) =
      if X.getD i "" = Y.getD j "" then lcsL X Y i j + 1
      else max (lcsL X Y i (j + 1)) (lcsL X Y (i + 1) j) := rfl

theorem pairsAux_zero_left (X Y : List String) (j : Nat) :
    pairsAux X Y 0 j = [] := rfl

theorem pairsAux_zero_right (X Y : List String) (i : Nat) :
    pairsAux X Y i 0 = [] := by
  cases i <;> rfl

theorem pairsAux_succ_succ (X Y : List String) (i j : Nat) :
    pairsAux X Y (i + 1) (j + 1) =
      if X.getD i "" = Y.getD j "" then pairsAux X Y i j ++ [(i, j)]
      else if lcsL X Y i (j + 1) ≥ lcsL X Y (i + 1) j then
        pairsAux X Y i (j + 1)
      else pairsAux X Y (i + 1) j := rfl

/-- The `Diff` record of `extract_differences` (begin/end indices and
the sliced values for the generated and the given side). -/
structure Diff where
  genBegin : Int
  genEnd : Int
  genVal : List String
  givBegin : Int
  givEnd : Int
  givVal : List String
deriving DecidableEq

/-- The per-pair loop of `extract_differences`; `px`/`py` are `prev_x`
and `prev_y`.  The source's `if diff_X or diff_Y` guard tests two
non-empty dicts, which are always truthy, so every pair appends its
diff (the empty ones are removed by the final cleanup). -/
def loopDiffs (X Y : List String) :
    List (Nat × Nat) → Int → Int → List Diff
  | [], _, _ => []
  | (x, y) :: rest, px, py =>
    { genBegin := px + 1, genEnd := (x : Int),
      genVal := pySlice X (px + 1) (x : Int),
      givBegin := py + 1, givEnd := (y : Int),
      givVal := pySlice Y (py + 1) (y : Int) } ::
    loopDiffs X Y rest (x : Int) (y : Int)

/-- Whether both value lists of a diff are empty (the cleanup test). -/
def bothEmpty (d : Diff) : Bool := d.genVal.isEmpty && d.givVal.isEmpty

/-- `extract_differences` from the source.  Note the final non-common
segment's slices stop at `len(...) - 1`, one element short of the ends. -/
def extract_differences (X Y : List String) : List Diff :=
  let pairs := longest_common_subsequence X Y
  let pxy : Int × Int :=
    match pairs.getLast? with
    | some p => ((p.1 : Int), (p.2 : Int))
    | none => (-1, -1)
  let ds := loopDiffs X Y pairs (-1) (-1)
  let ds2 :=
    if pxy.1 < (X.length : Int) - 1 ∨ pxy.2 < (Y.length : Int) - 1 then
      ds ++ [{ genBegin := pxy.1 + 1, genEnd := (X.length : Int) - 1,
               genVal := pySlice X (pxy.1 + 1) ((X.length : Int) - 1),
               givBegin := pxy.2 + 1, givEnd := (Y.length : Int) - 1,
               givVal := pySlice Y (pxy.2 + 1) ((Y.length : Int) - 1) }]
    else ds
  ds2.filter (fun d => !(bothEmpty d))

/-- The search for a diff starting at the current generated index
(`break` on the first hit, like the source's inner `for diff in
differences`). -/
def diffAt (diffs : List Diff) (cgi : Nat) : Option Diff :=
  diffs.find? (fun d => d.genBegin == (cgi : Int))

/-- The inner `for _ in range(word2ph_element)` loop of the replay pass:
returns the accumulated slot value and the next generated index. -/
def replayInner (diffs : List Diff) : Nat → Nat → Int → Int × Nat
  | 0, cgi, acc => (acc, cgi)
  | n + 1, cgi, acc =>
    let acc2 := match diffAt diffs cgi with
      | some d => acc + ((d.givVal.length : Int) - (d.genVal.length : Int))
      | none => acc
    replayInner diffs n (cgi + 1) (acc2 + 1)

/-- The outer replay loop over the word2ph slots. -/
def replayGo (diffs : List Diff) : List Int → Nat → List Int × Nat
  | [], cgi => ([], cgi)
  | e :: rest, cgi =>
    let vi := replayInner diffs e.toNat cgi 0
    let vr := replayGo diffs rest vi.2
    (vi.1 :: vr.1, vr.2)

/-- The provisional `adjusted_word2ph` after the replay pass, before the
two sweeps (and before the sum assertion). -/
def provisional_word2ph (word2ph : List Int)
    (generated_phone given_phone : List String) : List Int :=
  (replayGo (extract_differences (pyStrip generated_phone)
    (pyStrip given_phone)) (pyStrip word2ph) 0).1

/-- The inner repayment loop of the first sweep (`for i in range(1,
len(adjusted_word2ph))`). -/
def sweep1Inner (l : List Int) (idx i : Nat) (diff : Int) :
    Nat → List Int
  | 0 => l
  | fuel + 1 =>
    if i < l.length then
      if h : idx + i < l.length then
        let w := l.get ⟨idx + i, h⟩
        if w - diff ≥ 1 then l.set (idx + i) (w - diff)
        else
          let l2 := l.set (idx + i) 1
          if diff - (w - 1) = 0 then l2
          else sweep1Inner l2 idx (i + 1) (diff - (w - 1)) fuel
      else l
    else l

/-- The outer loop of the first sweep: raise every slot below 1 to 1 and
repay the shortfall from the following slots. -/
def sweep1Outer (l : List Int) (idx : Nat) : Nat → List Int
  | 0 => l
  | fuel + 1 =>
    if h : idx < l.length then
      let v := l.get ⟨idx, h⟩
      let l2 := if v < 1 then
          sweep1Inner (l.set idx 1) idx 1 (1 - v) (l.set idx 1).length
        else l
      sweep1Outer l2 (idx + 1) fuel
    else l

/-- The first sweep of `adjust_word2ph`. -/
def sweep1 (l : List Int) : List Int := sweep1Outer l 0 l.length

/-- The inner overflow-pushing loop of the second sweep. -/
def sweep2Inner (l : List Int) (idx i : Nat) (diff : Int) :
    Nat → List Int
  | 0 => l
  | fuel + 1 =>
    if i < l.length then
      if h : idx + i < l.length then
        let w := l.get ⟨idx + i, h⟩
        if w + diff ≤ 6 then l.set (idx + i) (w + diff)
        else
          let l2 := l.set (idx + i) 6
          if diff - (6 - w) = 0 then l2
          else sweep2Inner l2 idx (i + 1) (diff - (6 - w)) fuel
      else l
    else l

/-- The outer loop of the second sweep: cap every slot above 6 at 6 and
push the surplus into the following slots. -/
def sweep2Outer (l : List Int) (idx : Nat) : Nat → List Int
  | 0 => l
  | fuel + 1 =>
    if h : idx < l.length then
      let v := l.get ⟨idx, h⟩
      let l2 := if 6 < v then
          sweep2Inner (l.set idx 6) idx 1 (v - 6) (l.set idx 6).length
        else l
      sweep2Outer l2 (idx + 1) fuel
    else l

/-- The second sweep of `adjust_word2ph`. -/
def sweep2 (l : List Int) : List Int := sweep2Outer l 0 l.length

/-- `adjust_word2ph` from the source. -/
def adjust_word2ph (word2ph : List Int)
    (generated_phone given_phone : List String) : Option (List Int) :=
  let adjusted := provisional_word2ph word2ph generated_phone given_phone
  if ((pyStrip given_phone).length : Int) = adjusted.sum then
    some (1 :: sweep2 (sweep1 adjusted) ++ [1])
  else none

/-! ### C4: bounds on the reconciled `word2ph` -/

theorem sweep1Inner_length (fuel : Nat) (l : List Int) (idx i : Nat) (diff : Int) :
    (sweep1Inner l idx i diff fuel).length = l.length := by
  induction fuel generalizing l i diff with
  | zero => rfl
  | succ n ih =>
    simp only [sweep1Inner]
    repeat' split
    all_goals simp [ih, List.length_set]

theorem sweep1Inner_untouched (fuel : Nat) (l : List Int) (idx i : Nat) (diff : Int)
    (hi : 1 ≤ i) (j : Nat) (hj : j ≤ idx) :
    (sweep1Inner l idx i diff fuel)[j]? = l[j]? := by
  induction fuel generalizing l i diff with
  | zero => rfl
  | succ n ih =>
    simp only [sweep1Inner]
    repeat' split
    all_goals try rfl
    · rw [List.getElem?_set, if_neg (by omega)]
    · rw [List.getElem?_set, if_neg (by omega)]
    · rw [ih _ _ _ (by omega) , List.getElem?_set, if_neg (by omega)]

theorem sweep1Inner_vals (fuel : Nat) (l : List Int) (idx i : Nat) (diff : Int)
    (j : Nat) (v : Int) (h : (sweep1Inner l idx i diff fuel)[j]? = some v) :
    l[j]? = some v ∨ 1 ≤ v := by
  induction fuel generalizing l i diff with
  | zero => exact Or.inl h
  | succ n ih =>
    simp only [sweep1Inner] at h
    repeat' split at h
    · rw [List.getElem?_set] at h
      split at h
      · right; cases h; omega
      · exact Or.inl h
    · rw [List.getElem?_set] at h
      split at h
      · right; cases h; omega
      · exact Or.inl h
    · rcases ih _ _ _ h with h2 | h2
      · rw [List.getElem?_set] at h2
        split at h2
        · right; cases h2; omega
        · exact Or.inl h2
      · exact Or.inr h2
    · exact Or.inl h
    · exact Or.inl h

theorem sweep1Outer_spec (fuel : Nat) (l : List Int) (idx : Nat)
    (hfuel : l.length ≤ idx + fuel)
    (hpre : ∀ j : Nat, ∀ v : Int, j < idx → l[j]? = some v → 1 ≤ v) :
    (sweep1Outer l idx fuel).length = l.length ∧
    ∀ j : Nat, ∀ v : Int, (sweep1Outer l idx fuel)[j]? = some v → 1 ≤ v := by
  induction fuel generalizing l idx with
  | zero =>
    have h0 : sweep1Outer l idx 0 = l := rfl
    rw [h0]
    refine ⟨rfl, ?_⟩
    intro j v h
    by_cases hj : j < idx
    · exact hpre j v hj h
    · exfalso
      rw [List.getElem?_eq_none (by omega)] at h
      cases h
  | succ n ih =>
    simp only [sweep1Outer]
    split
    · rename_i hidx
      split
      · rename_i hv
        have hlen : (sweep1Inner (l.set idx 1) idx 1 (1 - l.get ⟨idx, hidx⟩)
            (l.set idx 1).length).length = l.length := by
          rw [sweep1Inner_length, List.length_set]
        have hpre2 : ∀ j : Nat, ∀ v : Int, j < idx + 1 →
            (sweep1Inner (l.set idx 1) idx 1 (1 - l.get ⟨idx, hidx⟩)
              (l.set idx 1).length)[j]? = some v → 1 ≤ v := by
          intro j v hj h
          rw [sweep1Inner_untouched _ _ _ _ _ (by omega) _ (by omega),
            List.getElem?_set] at h
          split at h
          · cases h; omega
          · exact hpre j v (by omega) h
        have h3 := ih _ (idx + 1) (by omega) hpre2
        exact ⟨by rw [h3.1, hlen], h3.2⟩
      · rename_i hv
        refine ih l (idx + 1) (by omega) ?_
        intro j v hj h
        by_cases hji : j < idx
        · exact hpre j v hji h
        · have hj2 : j = idx := by omega
          subst hj2
          rw [List.getElem?_eq_getElem hidx] at h
          cases h
          simpa using le_of_not_lt hv
    · refine ⟨rfl, ?_⟩
      intro j v h
      by_cases hj : j < idx
      · exact hpre j v hj h
      · exfalso
        rw [List.getElem?_eq_none (by omega)] at h
        cases h

theorem sweep2Inner_length (fuel : Nat) (l : List Int) (idx i : Nat) (diff : Int) :
    (sweep2Inner l idx i diff fuel).length = l.length := by
  induction fuel generalizing l i diff with
  | zero => rfl
  | succ n ih =>
    simp only [sweep2Inner]
    repeat' split
    all_goals simp [ih, List.length_set]

theorem sweep2Inner_untouched (fuel : Nat) (l : List Int) (idx i : Nat) (diff : Int)
    (hi : 1 ≤ i) (j : Nat) (hj : j ≤ idx) :
    (sweep2Inner l idx i diff fuel)[j]? = l[j]? := by
  induction fuel generalizing l i diff with
  | zero => rfl
  | succ n ih =>
    simp only [sweep2Inner]
    repeat' split
    all_goals try rfl
    · rw [List.getElem?_set, if_neg (by omega)]
    · rw [List.getElem?_set, if_neg (by omega)]
    · rw [ih _ _ _ (by omega) , List.getElem?_set, if_neg (by omega)]

theorem sweep2Inner_vals (fuel : Nat) (l : List Int) (idx i : Nat) (diff : Int)
    (j : Nat) (v : Int) (hdiff : 1 ≤ diff)
    (hall : ∀ j : Nat, ∀ v : Int, l[j]? = some v → 1 ≤ v)
    (h : (sweep2Inner l idx i diff fuel)[j]? = some v) :
    l[j]? = some v ∨ (1 ≤ v ∧ v ≤ 6) := by
  induction fuel generalizing l i diff with
  | zero => exact Or.inl h
  | succ n ih =>
    simp only [sweep2Inner] at h
    repeat' split at h
    · rename_i hin hbound hle
      rw [List.getElem?_set] at h
      split at h
      · right
        cases h
        have hw : 1 ≤ l.get ⟨idx + i, hbound⟩ :=
          hall _ _ (by rw [List.getElem?_eq_getElem hbound]; rfl)
        have hle2 : l.get ⟨idx + i, hbound⟩ + diff ≤ 6 := hle
        omega
      · exact Or.inl h
    · rw [List.getElem?_set] at h
      split at h
      · right; cases h; omega
      · exact Or.inl h
    · rename_i hin hbound hgt hstop
      have hw : 1 ≤ l.get ⟨idx + i, hbound⟩ :=
        hall _ _ (by rw [List.getElem?_eq_getElem hbound]; rfl)
      have hgt2 : ¬ l.get ⟨idx + i, hbound⟩ + diff ≤ 6 := hgt
      have hdiff2 : 1 ≤ diff - (6 - l.get ⟨idx + i, hbound⟩) := by omega
      have hall2 : ∀ j : Nat, ∀ v : Int,
          (l.set (idx + i) 6)[j]? = some v → 1 ≤ v := by
        intro j v hjv
        rw [List.getElem?_set] at hjv
        split at hjv
        · cases hjv; omega
        · exact hall j v hjv
      rcases ih _ _ _ hdiff2 hall2 h with h5 | h5
      · rw [List.getElem?_set] at h5
        split at h5
        · right; cases h5; omega
        · exact Or.inl h5
      · exact Or.inr h5
    · exact Or.inl h
    · exact Or.inl h

theorem sweep2Outer_spec (fuel : Nat) (l : List Int) (idx : Nat)
    (hfuel : l.length ≤ idx + fuel)
    (hall : ∀ j : Nat, ∀ v : Int, l[j]? = some v → 1 ≤ v)
    (hpre : ∀ j : Nat, ∀ v : Int, j < idx → l[j]? = some v → v ≤ 6) :
    (sweep2Outer l idx fuel).length = l.length ∧
    ∀ j : Nat, ∀ v : Int, (sweep2Outer l idx fuel)[j]? = some v →
      1 ≤ v ∧ v ≤ 6 := by
  induction fuel generalizing l idx with
  | zero =>
    have h0 : sweep2Outer l idx 0 = l := rfl
    rw [h0]
    refine ⟨rfl, ?_⟩
    intro j v h
    by_cases hj : j < idx
    · exact ⟨hall j v h, hpre j v hj h⟩
    · exfalso
      rw [List.getElem?_eq_none (by omega)] at h
      cases h
  | succ n ih =>
    simp only [sweep2Outer]
    split
    · rename_i hidx
      split
      · rename_i hv
        have hw6 : ∀ j : Nat, ∀ v : Int, (l.set idx 6)[j]? = some v → 1 ≤ v := by
          intro j v hjv
          rw [List.getElem?_set] at hjv
          split at hjv
          · cases hjv; omega
          · exact hall j v hjv
        have hlen : (sweep2Inner (l.set idx 6) idx 1 (l.get ⟨idx, hidx⟩ - 6)
            (l.set idx 6).length).length = l.length := by
          rw [sweep2Inner_length, List.length_set]
        have hall2 : ∀ j : Nat, ∀ v : Int, (sweep2Inner (l.set idx 6) idx 1
            (l.get ⟨idx, hidx⟩ - 6) (l.set idx 6).length)[j]? = some v →
            1 ≤ v := by
          intro j v hjv
          rcases sweep2Inner_vals _ _ _ _ _ _ _ (by omega) hw6 hjv with h2 | h2
          · exact hw6 j v h2
          · exact h2.1
        have hpre2 : ∀ j : Nat, ∀ v : Int, j < idx + 1 →
            (sweep2Inner (l.set idx 6) idx 1 (l.get ⟨idx, hidx⟩ - 6)
              (l.set idx 6).length)[j]? = some v → v ≤ 6 := by
          intro j v hj hjv
          rw [sweep2Inner_untouched _ _ _ _ _ (by omega) _ (by omega),
            List.getElem?_set] at hjv
          split at hjv
          · cases hjv; omega
          · exact hpre j v (by omega) hjv
        have h3 := ih _ (idx + 1) (by omega) hall2 hpre2
        exact ⟨by rw [h3.1, hlen], h3.2⟩
      · rename_i hv
        refine ih l (idx + 1) (by omega) hall ?_
        intro j v hj h
        by_cases hji : j < idx
        · exact hpre j v hji h
        · have hj2 : j = idx := by omega
          subst hj2
          rw [List.getElem?_eq_getElem hidx] at h
          cases h
          simpa using le_of_not_lt hv
    · refine ⟨rfl, ?_⟩
      intro j v h
      by_cases hj : j < idx
      · exact ⟨hall j v h, hpre j v hj h⟩
      · exfalso
        rw [List.getElem?_eq_none (by omega)] at h
        cases h

/-- C4: whenever `adjust_word2ph` returns a result, every entry of the
returned `word2ph` is at least 1 and at most 6, and the re-attached
first and last boundary entries equal 1: the first sweep raises every
slot below 1 to 1 (repaying from following slots without driving them
below 1) and the second sweep caps every slot above 6 at 6 (pushing the
surplus into following slots without driving them above 6). -/
theorem c4_adjust_word2ph_bounds (word2ph : List Int)
    (generated_phone given_phone : List String) (res : List Int)
    (h : adjust_word2ph word2ph generated_phone given_phone = some res) :
    (∀ x ∈ res, 1 ≤ x ∧ x ≤ 6) ∧ res.head? = some 1 ∧ res.getLast? = some 1 := by
  simp only [adjust_word2ph] at h
  split at h
  · rw [Option.some_inj] at h
    subst h
    have h1 := sweep1Outer_spec
      (provisional_word2ph word2ph generated_phone given_phone).length
      (provisional_word2ph word2ph generated_phone given_phone) 0
      (by omega) (by intro j v hj; omega)
    have h2 := sweep2Outer_spec (sweep1 (provisional_word2ph word2ph
        generated_phone given_phone)).length
      (sweep1 (provisional_word2ph word2ph generated_phone given_phone)) 0
      (by omega) h1.2 (by intro j v hj; omega)
    refine ⟨?_, rfl, ?_⟩
    · intro x hx
      rcases List.mem_cons.1 hx with hx1 | hx2
      · subst hx1; exact ⟨le_refl 1, by norm_num⟩
      · rcases List.mem_append.1 hx2 with hx3 | hx4
        · rcases List.mem_iff_getElem?.1 hx3 with ⟨i, hi⟩
          exact h2.2 i x hi
        · rcases List.mem_singleton.1 hx4 with rfl
          exact ⟨le_refl 1, by norm_num⟩
    · rw [show (1 : Int) :: sweep2 (sweep1 (provisional_word2ph word2ph
          generated_phone given_phone)) ++ [1] =
        ((1 : Int) :: sweep2 (sweep1 (provisional_word2ph word2ph
          generated_phone given_phone))) ++ [1] from rfl]
      exact List.getLast?_concat _
  · cases h

theorem c4_witness :
    adjust_word2ph [1, 1, 1] ["_", "a", "_"] ["_", "a", "_"] = some [1, 1, 1] ∧
    ((∀ x ∈ ([1, 1, 1] : List Int), 1 ≤ x ∧ x ≤ 6) ∧
      ([1, 1, 1] : List Int).head? = some 1 ∧
      ([1, 1, 1] : List Int).getLast? = some 1) :=
  ⟨by decide, c4_adjust_word2ph_bounds [1, 1, 1] ["_", "a", "_"] ["_", "a", "_"]
    [1, 1, 1] (by decide)⟩

/-! ### C5: idempotence of `adjust_word2ph` on identical phoneme lists -/

theorem pySlice_self (l : List α) (a : Int) : pySlice l a a = [] := by
  apply List.drop_eq_nil_of_le
  rw [List.length_take]
  exact min_le_left _ _

theorem pairsAux_diag (Z : List String) (i : Nat) :
    pairsAux Z Z i i = (List.range i).map (fun k => (k, k)) := by
  induction i with
  | zero => rfl
  | succ n ih =>
    rw [pairsAux_succ_succ, if_pos rfl, ih, List.range_succ, List.map_append]
    rfl

theorem loopDiffs_diag (Z : List String) (i : Nat) :
    ∀ c : Nat, ∀ d ∈ loopDiffs Z Z
      ((List.range i).map (fun k => (c + k, c + k)))
      ((c : Int) - 1) ((c : Int) - 1),
      bothEmpty d = true := by
  induction i with
  | zero =>
    intro c d hd
    simp [loopDiffs] at hd
  | succ n ih =>
    intro c d hd
    rw [List.range_succ_eq_map, List.map_cons, List.map_map] at hd
    have hf : ((fun k : Nat => (c + k, c + k)) ∘ Nat.succ) =
        (fun k : Nat => (c + 1 + k, c + 1 + k)) := by
      funext k
      have h1 : c + k.succ = c + 1 + k := by omega
      simp [Function.comp, h1]
    rw [hf] at hd
    simp only [loopDiffs, Nat.add_zero, List.mem_cons] at hd
    rcases hd with hd1 | hd2
    · subst hd1
      have hs : (c : Int) - 1 + 1 = (c : Int) := by ring
      simp [bothEmpty, hs, pySlice_self]
    · have hc : ((c + 1 : Nat) : Int) - 1 = (c : Int) := by push_cast; ring
      have := ih (c + 1)
      rw [hc] at this
      exact this d hd2

theorem extract_differences_self (Z : List String) :
    extract_differences Z Z = [] := by
  unfold extract_differences longest_common_subsequence
  rw [pairsAux_diag]
  have hall : ∀ d ∈ loopDiffs Z Z
      ((List.range Z.length).map (fun k => (k, k))) (-1) (-1),
      bothEmpty d = true := by
    have h0 : ((List.range Z.length).map (fun k => (k, k))) =
        ((List.range Z.length).map (fun k => (0 + k, 0 + k))) := by simp
    have h1 : (-1 : Int) = ((0 : Nat) : Int) - 1 := by norm_num
    rw [h0, h1]
    exact loopDiffs_diag Z Z.length 0
  cases hZ : Z.length with
  | zero =>
    simp only [hZ, List.range_zero, List.map_nil, List.getLast?_nil,
      loopDiffs]
    norm_num
  | succ m =>
    have hlast : ((List.range (m + 1)).map
        (fun k => (k, k))).getLast? = some (m, m) := by
      rw [List.range_succ, List.map_append]
      exact List.getLast?_concat _
    simp only [hZ, hlast]
    have hcond : ¬ (((m : Int), (m : Int)).1 < ((m + 1 : Nat) : Int) - 1 ∨
        ((m : Int), (m : Int)).2 < ((m + 1 : Nat) : Int) - 1) := by
      push_cast
      omega
    rw [if_neg hcond]
    refine List.filter_eq_nil_iff.mpr ?_
    intro d hd
    have := hall d (by rw [← hZ] at hd; exact hd)
    simp [this]

theorem replayInner_nil (n : Nat) (cgi : Nat) (acc : Int) :
    replayInner [] n cgi acc = (acc + (n : Int), cgi + n) := by
  induction n generalizing cgi acc with
  | zero => simp [replayInner]
  | succ m ih =>
    show replayInner [] m (cgi + 1) (acc + 1) = _
    rw [ih]
    have h1 : acc + 1 + (m : Int) = acc + ((m + 1 : Nat) : Int) := by
      push_cast
      ring
    have h2 : cgi + 1 + m = cgi + (m + 1) := by omega
    rw [h1, h2]

theorem replayGo_nil (w2 : List Int) (cgi : Nat)
    (hpos : ∀ e ∈ w2, 0 ≤ e) : (replayGo [] w2 cgi).1 = w2 := by
  induction w2 generalizing cgi with
  | nil => rfl
  | cons e rest ih =>
    show (replayInner [] e.toNat cgi 0).1 ::
      (replayGo [] rest (replayInner [] e.toNat cgi 0).2).1 = e :: rest
    rw [replayInner_nil]
    have he : (0 : Int) + (e.toNat : Int) = e := by
      rw [Int.toNat_of_nonneg (hpos e (List.mem_cons_self e rest))]
      ring
    rw [he, ih _ (fun x hx => hpos x (List.mem_cons_of_mem e hx))]

theorem sweep1Outer_id (fuel : Nat) (l : List Int) (idx : Nat)
    (hall : ∀ j : Nat, ∀ v : Int, l[j]? = some v → 1 ≤ v) :
    sweep1Outer l idx fuel = l := by
  induction fuel generalizing idx with
  | zero => rfl
  | succ n ih =>
    simp only [sweep1Outer]
    split
    · rename_i hidx
      have hv : 1 ≤ l.get ⟨idx, hidx⟩ :=
        hall idx _ (List.getElem?_eq_getElem hidx)
      rw [if_neg (by omega)]
      exact ih (idx + 1)
    · rfl

theorem sweep2Outer_id (fuel : Nat) (l : List Int) (idx : Nat)
    (hall : ∀ j : Nat, ∀ v : Int, l[j]? = some v → v ≤ 6) :
    sweep2Outer l idx fuel = l := by
  induction fuel generalizing idx with
  | zero => rfl
  | succ n ih =>
    simp only [sweep2Outer]
    split
    · rename_i hidx
      have hv : l.get ⟨idx, hidx⟩ ≤ 6 :=
        hall idx _ (List.getElem?_eq_getElem hidx)
      rw [if_neg (by omega)]
      exact ih (idx + 1)
    · rfl

theorem pyStrip_wrap (a b : α) (l : List α) :
    pyStrip (a :: l ++ [b]) = l := by
  show ((a :: (l ++ [b])).drop 1).dropLast = l
  rw [List.drop_one, List.tail_cons, List.dropLast_concat]

/-- C5 counterexample: a `word2ph` whose stripped interior `[2, 0]` sums
to the stripped generated sequence's length, called with
`given_phone = generated_phone`, is not returned unchanged: the first
sweep raises the 0 slot to 1, yielding `[1, 2, 1, 1]` instead of the
original `[1, 2, 0, 1]`. -/
theorem c5_counterexample :
    (pyStrip ([1, 2, 0, 1] : List Int)).sum =
      ((pyStrip (["_", "x", "y", "_"] : List String)).length : Int) ∧
    adjust_word2ph [1, 2, 0, 1] ["_", "x", "y", "_"] ["_", "x", "y", "_"] =
      some [1, 2, 1, 1] ∧
    ([1, 2, 1, 1] : List Int) ≠ [1, 2, 0, 1] := by decide

/-- C5 (amended): calling `adjust_word2ph` with `given_phone` equal to
`generated_phone` returns the original `word2ph` unchanged provided that,
in addition to the stripped interior entries summing to the stripped
generated sequence's length, every interior entry already lies in the
band `[1, 6]` (and the boundary entries are the dummy value 1): the diff
of a list with itself is empty, the replay reproduces the interior, and
both sweeps leave a list within the band untouched.  Without the band
restriction the sweeps can alter the result (`c5_counterexample`). -/
theorem c5_adjust_word2ph_id (interior : List Int) (G : List String)
    (hbounds : ∀ e ∈ interior, 1 ≤ e ∧ e ≤ 6)
    (hsum : interior.sum = ((pyStrip G).length : Int)) :
    adjust_word2ph (1 :: interior ++ [1]) G G = some (1 :: interior ++ [1]) := by
  have hprov : provisional_word2ph (1 :: interior ++ [1]) G G = interior := by
    unfold provisional_word2ph
    rw [extract_differences_self, pyStrip_wrap]
    exact replayGo_nil _ _
      (fun e he => le_trans zero_le_one (hbounds e he).1)
  simp only [adjust_word2ph, hprov]
  rw [if_pos hsum.symm]
  have hs1 : sweep1 interior = interior :=
    sweep1Outer_id _ _ _
      (fun j v hjv => (hbounds v (List.mem_iff_getElem?.mpr ⟨j, hjv⟩)).1)
  have hs2 : sweep2 interior = interior :=
    sweep2Outer_id _ _ _
      (fun j v hjv => (hbounds v (List.mem_iff_getElem?.mpr ⟨j, hjv⟩)).2)
  rw [hs1, hs2]

theorem c5_witness :
    (∀ e ∈ ([2] : List Int), 1 ≤ e ∧ e ≤ 6) ∧
    ([2] : List Int).sum = ((pyStrip (["_", "a", "b", "_"] : List String)).length : Int) ∧
    adjust_word2ph (1 :: ([2] : List Int) ++ [1]) ["_", "a", "b", "_"]
      ["_", "a", "b", "_"] = some (1 :: ([2] : List Int) ++ [1]) :=
  ⟨by decide, by decide,
    c5_adjust_word2ph_id [2] ["_", "a", "b", "_"] (by decide) (by decide)⟩

/-! ### C10: the truncated final diff makes the assertion fail -/

theorem lcsL_min (X S : List String) :
    ∀ s i j, i + j ≤ s → i ≤ X.length → lcsL X (X ++ S) i j = min i j := by
  intro s
  induction s with
  | zero =>
    intro i j hs hi
    have hi0 : i = 0 := by omega
    have hj0 : j = 0 := by omega
    subst hi0; subst hj0
    rfl
  | succ t ih =>
    intro i j hs hi
    cases i with
    | zero => rw [lcsL_zero_left]; omega
    | succ a =>
      cases j with
      | zero => rw [lcsL_zero_right]; omega
      | succ b =>
        rw [lcsL_succ_succ]
        by_cases heq : X.getD a "" = (X ++ S).getD b ""
        · rw [if_pos heq, ih a b (by omega) (by omega)]
          omega
        · rw [if_neg heq]
          have hab : a ≠ b := by
            intro hab
            subst hab
            exact heq (List.getD_append X S "" a (by omega)).symm
          rw [ih a (b + 1) (by omega) (by omega),
            ih (a + 1) b (by omega) (by omega)]
          omega

theorem pairsAux_length_eq (X Y : List String) :
    ∀ s i j, i + j ≤ s → (pairsAux X Y i j).length = lcsL X Y i j := by
  intro s
  induction s with
  | zero =>
    intro i j hs
    have hi0 : i = 0 := by omega
    have hj0 : j = 0 := by omega
    subst hi0; subst hj0
    rfl
  | succ t ih =>
    intro i j hs
    cases i with
    | zero => rw [pairsAux_zero_left, lcsL_zero_left]; rfl
    | succ a =>
      cases j with
      | zero => rw [pairsAux_zero_right, lcsL_zero_right]; rfl
      | succ b =>
        rw [pairsAux_succ_succ, lcsL_succ_succ]
        by_cases heq : X.getD a "" = Y.getD b ""
        · rw [if_pos heq, if_pos heq, List.length_append,
            ih a b (by omega)]
          rfl
        · rw [if_neg heq, if_neg heq]
          by_cases hge : lcsL X Y a (b + 1) ≥ lcsL X Y (a + 1) b
          · rw [if_pos hge, ih a (b + 1) (by omega)]
            omega
          · rw [if_neg hge, ih (a + 1) b (by omega)]
            omega

theorem pairsAux_mem (X Y : List String) :
    ∀ s i j, i + j ≤ s → ∀ p ∈ pairsAux X Y i j,
      p.1 < i ∧ p.2 < j ∧ X.getD p.1 "" = Y.getD p.2 "" := by
  intro s
  induction s with
  | zero =>
    intro i j hs p hp
    have hi0 : i = 0 := by omega
    subst hi0
    rw [pairsAux_zero_left] at hp
    cases hp
  | succ t ih =>
    intro i j hs p hp
    cases i with
    | zero =>
      rw [pairsAux_zero_left] at hp
      cases hp
    | succ a =>
      cases j with
      | zero =>
        rw [pairsAux_zero_right] at hp
        cases hp
      | succ b =>
        rw [pairsAux_succ_succ] at hp
        by_cases heq : X.getD a "" = Y.getD b ""
        · rw [if_pos heq, List.mem_append] at hp
          rcases hp with hp1 | hp2
          · have := ih a b (by omega) p hp1
            exact ⟨by omega, by omega, this.2.2⟩
          · rw [List.mem_singleton] at hp2
            subst hp2
            exact ⟨by omega, by omega, heq⟩
        · rw [if_neg heq] at hp
          by_cases hge : lcsL X Y a (b + 1) ≥ lcsL X Y (a + 1) b
          · rw [if_pos hge] at hp
            have := ih a (b + 1) (by omega) p hp
            exact ⟨by omega, this.2.1, this.2.2⟩
          · rw [if_neg hge] at hp
            have := ih (a + 1) b (by omega) p hp
            exact ⟨this.1, by omega, this.2.2⟩

theorem pairsAux_chain (X Y : List String) :
    ∀ s i j, i + j ≤ s →
      List.Chain' (fun p q : Nat × Nat => p.1 < q.1 ∧ p.2 < q.2)
        (pairsAux X Y i j) := by
  intro s
  induction s with
  | zero =>
    intro i j hs
    have hi0 : i = 0 := by omega
    subst hi0
    rw [pairsAux_zero_left]
    exact List.chain'_nil
  | succ t ih =>
    intro i j hs
    cases i with
    | zero => rw [pairsAux_zero_left]; exact List.chain'_nil
    | succ a =>
      cases j with
      | zero => rw [pairsAux_zero_right]; exact List.chain'_nil
      | succ b =>
        rw [pairsAux_succ_succ]
        by_cases heq : X.getD a "" = Y.getD b ""
        · rw [if_pos heq]
          rw [List.chain'_append]
          refine ⟨ih a b (by omega), List.chain'_singleton _, ?_⟩
          intro x hx y hy
          rw [List.head?_cons, Option.mem_def, Option.some_inj] at hy
          subst hy
          have hx2 := pairsAux_mem X Y (a + b) a b (le_refl _) x
            (List.mem_of_mem_getLast? hx)
          exact ⟨hx2.1, hx2.2.1⟩
        · rw [if_neg heq]
          by_cases hge : lcsL X Y a (b + 1) ≥ lcsL X Y (a + 1) b
          · rw [if_pos hge]; exact ih a (b + 1) (by omega)
          · rw [if_neg hge]; exact ih (a + 1) b (by omega)

/-- The phoneme-count difference `len(given.value) - len(generated.value)`
a diff contributes when the replay hits its begin index. -/
def dval (d : Diff) : Int := (d.givVal.length : Int) - (d.genVal.length : Int)

theorem bothEmpty_dval {d : Diff} (h : bothEmpty d = true) : dval d = 0 := by
  unfold bothEmpty at h
  rw [Bool.and_eq_true] at h
  unfold dval
  rw [List.isEmpty_iff.mp h.1, List.isEmpty_iff.mp h.2]
  rfl

theorem pySlice_length_int (l : List α) (a b : Int)
    (ha : 0 ≤ a) (hab : a ≤ b) (hb : b ≤ (l.length : Int)) :
    ((pySlice l a b).length : Int) = b - a := by
  have h1 : pySliceIdx l.length b = b.toNat := by
    unfold pySliceIdx
    rw [if_neg (by omega)]
    omega
  have h2 : pySliceIdx l.length a = a.toNat := by
    unfold pySliceIdx
    rw [if_neg (by omega)]
    omega
  unfold pySlice
  rw [h1, h2, List.length_drop, List.length_take]
  omega

theorem loopDiffs_genBegin_lb (X Y : List String) :
    ∀ (Q : List (Nat × Nat)) (px py : Int),
      List.Chain' (fun p q : Nat × Nat => p.1 < q.1 ∧ p.2 < q.2) Q →
      (∀ h ∈ Q.head?, px < (h.1 : Int)) →
      ∀ d ∈ loopDiffs X Y Q px py, px + 1 ≤ d.genBegin := by
  intro Q
  induction Q with
  | nil =>
    intro px py _ _ d hd
    cases hd
  | cons p rest ih =>
    intro px py hchain hhd d hd
    obtain ⟨x, y⟩ := p
    have hpx : px < (x : Int) := by
      have := hhd (x, y) (by rw [List.head?_cons]; rfl)
      exact this
    simp only [loopDiffs, List.mem_cons] at hd
    rcases hd with hd1 | hd2
    · subst hd1
      show px + 1 ≤ px + 1
      omega
    · have hchain2 := (List.chain'_cons'.mp hchain).2
      have hhd2 : ∀ h ∈ rest.head?, (x : Int) < (h.1 : Int) := by
        intro h hh
        have := (List.chain'_cons'.mp hchain).1 h hh
        exact_mod_cast this.1
      have := ih x y hchain2 hhd2 d hd2
      omega

theorem loopDiffs_genBegin_ub (X Y : List String) (B : Int) :
    ∀ (Q : List (Nat × Nat)) (px py : Int),
      List.Chain' (fun p q : Nat × Nat => p.1 < q.1 ∧ p.2 < q.2) Q →
      (∀ p ∈ Q, (p.1 : Int) ≤ B) →
      (∀ h ∈ Q.head?, px < (h.1 : Int)) →
      ∀ d ∈ loopDiffs X Y Q px py, d.genBegin ≤ B := by
  intro Q
  induction Q with
  | nil =>
    intro px py _ _ _ d hd
    cases hd
  | cons p rest ih =>
    intro px py hchain hub hhd d hd
    obtain ⟨x, y⟩ := p
    have hpx : px < (x : Int) := hhd (x, y) (by rw [List.head?_cons]; rfl)
    have hxB : (x : Int) ≤ B := hub (x, y) (List.mem_cons_self _ _)
    simp only [loopDiffs, List.mem_cons] at hd
    rcases hd with hd1 | hd2
    · subst hd1
      show px + 1 ≤ B
      omega
    · have hchain2 := (List.chain'_cons'.mp hchain).2
      have hhd2 : ∀ h ∈ rest.head?, (x : Int) < (h.1 : Int) := by
        intro h hh
        have := (List.chain'_cons'.mp hchain).1 h hh
        exact_mod_cast this.1
      exact ih x y hchain2 (fun p hp => hub p (List.mem_cons_of_mem _ hp))
        hhd2 d hd2

theorem loopDiffs_pairwise (X Y : List String) :
    ∀ (Q : List (Nat × Nat)) (px py : Int),
      List.Chain' (fun p q : Nat × Nat => p.1 < q.1 ∧ p.2 < q.2) Q →
      (∀ h ∈ Q.head?, px < (h.1 : Int)) →
      List.Pairwise (fun d d' : Diff => d.genBegin < d'.genBegin)
        (loopDiffs X Y Q px py) := by
  intro Q
  induction Q with
  | nil =>
    intro px py _ _
    exact List.Pairwise.nil
  | cons p rest ih =>
    intro px py hchain hhd
    obtain ⟨x, y⟩ := p
    have hpx : px < (x : Int) := hhd (x, y) (by rw [List.head?_cons]; rfl)
    have hchain2 := (List.chain'_cons'.mp hchain).2
    have hhd2 : ∀ h ∈ rest.head?, (x : Int) < (h.1 : Int) := by
      intro h hh
      have := (List.chain'_cons'.mp hchain).1 h hh
      exact_mod_cast this.1
    simp only [loopDiffs]
    refine List.Pairwise.cons ?_ (ih x y hchain2 hhd2)
    intro d hd
    have := loopDiffs_genBegin_lb X Y rest x y hchain2 hhd2 d hd
    show px + 1 < d.genBegin
    omega

theorem loopDiffs_sum (X Y : List String) :
    ∀ (Q : List (Nat × Nat)) (px py : Int),
      List.Chain' (fun p q : Nat × Nat => p.1 < q.1 ∧ p.2 < q.2) Q →
      (∀ p ∈ Q, p.1 < X.length ∧ p.2 < Y.length) →
      (∀ h ∈ Q.head?, px < (h.1 : Int) ∧ py < (h.2 : Int)) →
      -1 ≤ px → -1 ≤ py →
      ((loopDiffs X Y Q px py).map dval).sum =
        (match Q.getLast? with
          | some lp => ((lp.2 : Int) - py) - ((lp.1 : Int) - px)
          | none => 0) := by
  intro Q
  induction Q with
  | nil =>
    intro px py _ _ _ _ _
    rfl
  | cons p rest ih =>
    intro px py hchain hbnd hhd hpx hpy
    obtain ⟨x, y⟩ := p
    have hhd0 := hhd (x, y) (by rw [List.head?_cons]; rfl)
    have hbnd0 := hbnd (x, y) (List.mem_cons_self _ _)
    have hgen : ((pySlice X (px + 1) (x : Int)).length : Int) =
        (x : Int) - (px + 1) := by
      refine pySlice_length_int X (px + 1) (x : Int) (by omega) (by omega) ?_
      have := hbnd0.1
      omega
    have hgiv : ((pySlice Y (py + 1) (y : Int)).length : Int) =
        (y : Int) - (py + 1) := by
      refine pySlice_length_int Y (py + 1) (y : Int) (by omega) (by omega) ?_
      have := hbnd0.2
      omega
    have hchain2 := (List.chain'_cons'.mp hchain).2
    have hhd2 : ∀ h ∈ rest.head?, (x : Int) < (h.1 : Int) ∧
        (y : Int) < (h.2 : Int) := by
      intro h hh
      have := (List.chain'_cons'.mp hchain).1 h hh
      exact ⟨by exact_mod_cast this.1, by exact_mod_cast this.2⟩
    have hrest := ih (x : Int) (y : Int) hchain2
      (fun p hp => hbnd p (List.mem_cons_of_mem _ hp)) hhd2
      (by omega) (by omega)
    simp only [loopDiffs, List.map_cons, List.sum_cons]
    rw [hrest]
    cases rest with
    | nil =>
      show ((pySlice Y (py + 1) (y : Int)).length : Int) -
          ((pySlice X (px + 1) (x : Int)).length : Int) + 0 =
        ((y : Int) - py) - ((x : Int) - px)
      rw [hgen, hgiv]
      ring
    | cons q qs =>
      rw [List.getLast?_cons_cons]
      cases hql : (q :: qs).getLast? with
      | none =>
        exfalso
        have hh := List.getLast?_eq_getLast (q :: qs) (by simp)
        rw [hql] at hh
        cases hh
      | some lp =>
        show ((pySlice Y (py + 1) (y : Int)).length : Int) -
            ((pySlice X (px + 1) (x : Int)).length : Int) +
            (((lp.2 : Int) - (y : Int)) - ((lp.1 : Int) - (x : Int))) =
          ((lp.2 : Int) - py) - ((lp.1 : Int) - px)
        rw [hgen, hgiv]
        ring

/-- The value a replay iteration at generated index `cgi` adds on top of
the constant 1: the phoneme-count difference of the diff starting at
`cgi`, if any. -/
def contrib (diffs : List Diff) (cgi : Nat) : Int :=
  match diffAt diffs cgi with
  | some d => (d.givVal.length : Int) - (d.genVal.length : Int)
  | none => 0

theorem replayInner_spec (diffs : List Diff) :
    ∀ (nIt cgi : Nat) (acc : Int),
      replayInner diffs nIt cgi acc =
        (acc + ((List.range nIt).map (fun t => contrib diffs (cgi + t))).sum
          + (nIt : Int), cgi + nIt) := by
  intro nIt
  induction nIt with
  | zero =>
    intro cgi acc
    simp [replayInner]
  | succ m ih =>
    intro cgi acc
    show replayInner diffs m (cgi + 1)
      ((match diffAt diffs cgi with
        | some d => acc + ((d.givVal.length : Int) - (d.genVal.length : Int))
        | none => acc) + 1) = _
    have hacc : (match diffAt diffs cgi with
        | some d => acc + ((d.givVal.length : Int) - (d.genVal.length : Int))
        | none => acc) = acc + contrib diffs cgi := by
      unfold contrib
      cases diffAt diffs cgi with
      | none => show acc = acc + 0; ring
      | some d => rfl
    rw [hacc, ih]
    have hsum : ((List.range (m + 1)).map
        (fun t => contrib diffs (cgi + t))).sum =
        contrib diffs cgi +
          ((List.range m).map (fun t => contrib diffs (cgi + 1 + t))).sum := by
      rw [List.range_succ_eq_map, List.map_cons, List.map_map, List.sum_cons]
      have hc : (cgi + 0) = cgi := by omega
      rw [hc]
      have hmaps : (List.range m).map
          ((fun t => contrib diffs (cgi + t)) ∘ Nat.succ) =
          (List.range m).map (fun t => contrib diffs (cgi + 1 + t)) := by
        apply List.map_eq_map_iff.mpr
        intro t ht
        have h2 : cgi + Nat.succ t = cgi + 1 + t := by omega
        simp [Function.comp, h2]
      rw [hmaps]
    rw [hsum, Prod.mk.injEq]
    constructor
    · push_cast
      ring
    · omega

theorem replayGo_spec (diffs : List Diff) :
    ∀ (W : List Int) (cgi : Nat),
      (replayGo diffs W cgi).2 = cgi + (W.map Int.toNat).sum ∧
      (replayGo diffs W cgi).1.sum =
        (((W.map Int.toNat).sum : Nat) : Int) +
          ((List.range ((W.map Int.toNat).sum)).map
            (fun t => contrib diffs (cgi + t))).sum := by
  intro W
  induction W with
  | nil =>
    intro cgi
    exact ⟨by simp [replayGo], by simp [replayGo]⟩
  | cons e rest ih =>
    intro cgi
    have hgo : replayGo diffs (e :: rest) cgi =
        ((replayInner diffs e.toNat cgi 0).1 ::
          (replayGo diffs rest (replayInner diffs e.toNat cgi 0).2).1,
         (replayGo diffs rest (replayInner diffs e.toNat cgi 0).2).2) := rfl
    rw [hgo, replayInner_spec]
    have hih := ih (cgi + e.toNat)
    have hsplit : ((List.range (e.toNat + (rest.map Int.toNat).sum)).map
        (fun t => contrib diffs (cgi + t))).sum =
        ((List.range e.toNat).map (fun t => contrib diffs (cgi + t))).sum +
        ((List.range ((rest.map Int.toNat).sum)).map
          (fun t => contrib diffs (cgi + e.toNat + t))).sum := by
      rw [List.range_add, List.map_append, List.sum_append, List.map_map]
      have hmaps : (List.range ((rest.map Int.toNat).sum)).map
          ((fun t => contrib diffs (cgi + t)) ∘ (fun t => e.toNat + t)) =
          (List.range ((rest.map Int.toNat).sum)).map
            (fun t => contrib diffs (cgi + e.toNat + t)) := by
        apply List.map_eq_map_iff.mpr
        intro t ht
        have h2 : cgi + (e.toNat + t) = cgi + e.toNat + t := by omega
        simp [Function.comp, h2]
      rw [hmaps]
    constructor
    · show (replayGo diffs rest (cgi + e.toNat)).2 = _
      rw [hih.1, List.map_cons, List.sum_cons]
      omega
    · show (0 + ((List.range e.toNat).map
          (fun t => contrib diffs (cgi + t))).sum + (e.toNat : Int)) +
        (replayGo diffs rest (cgi + e.toNat)).1.sum = _
      rw [hih.2, List.map_cons, List.sum_cons, hsplit]
      push_cast
      ring

theorem sum_map_toNat (W : List Int) (h : ∀ e ∈ W, 0 ≤ e) :
    (((W.map Int.toNat).sum : Nat) : Int) = W.sum := by
  induction W with
  | nil => rfl
  | cons e rest ih =>
    simp only [List.map_cons, List.sum_cons]
    rw [Nat.cast_add, Int.toNat_of_nonneg (h e (List.mem_cons_self _ _)),
      ih (fun x hx => h x (List.mem_cons_of_mem _ hx))]

theorem sum_indicator_range :
    ∀ (m : Nat) (gb v : Int),
      ((List.range m).map (fun t : Nat => if gb = (t : Int) then v else 0)).sum =
        if 0 ≤ gb ∧ gb < (m : Int) then v else 0 := by
  intro m
  induction m with
  | zero =>
    intro gb v
    rw [List.range_zero]
    have hc : ¬ (0 ≤ gb ∧ gb < ((0 : Nat) : Int)) := by
      push_cast
      omega
    rw [if_neg hc]
    rfl
  | succ k ih =>
    intro gb v
    rw [List.range_succ, List.map_append, List.sum_append, ih]
    show (if 0 ≤ gb ∧ gb < (k : Int) then v else 0) +
        ((if gb = (k : Int) then v else 0) + 0) = _
    by_cases h1 : gb = (k : Int)
    · rw [if_pos h1, if_neg (by omega), if_pos (by push_cast; omega)]
      ring
    · rw [if_neg h1]
      by_cases h2 : 0 ≤ gb ∧ gb < (k : Int)
      · rw [if_pos h2, if_pos (by push_cast; omega)]
        ring
      · rw [if_neg h2, if_neg (by push_cast; omega)]
        ring

theorem contrib_sum_eq (m : Nat) :
    ∀ (D : List Diff),
      List.Pairwise (fun d d' : Diff => d.genBegin ≠ d'.genBegin) D →
      ((List.range m).map (fun t => contrib D t)).sum =
        (D.map (fun d => if 0 ≤ d.genBegin ∧ d.genBegin < (m : Int)
          then dval d else 0)).sum := by
  intro D
  induction D with
  | nil =>
    intro _
    have hz : ∀ t ∈ List.range m, contrib ([] : List Diff) t = 0 :=
      fun t _ => rfl
    rw [List.map_eq_map_iff.mpr hz]
    simp
  | cons d D' ih =>
    intro hpw
    have hpw' := List.pairwise_cons.mp hpw
    have hpt : ∀ t ∈ List.range m, contrib (d :: D') t =
        contrib D' t + (if d.genBegin = (t : Int) then dval d else 0) := by
      intro t ht
      by_cases h : d.genBegin = (t : Int)
      · have h1 : diffAt (d :: D') t = some d := by
          unfold diffAt
          exact List.find?_cons_of_pos _ (beq_iff_eq.mpr h)
        have h2 : diffAt D' t = none := by
          unfold diffAt
          rw [List.find?_eq_none]
          intro d' hd' hc
          rw [beq_iff_eq] at hc
          exact hpw'.1 d' hd' (h.trans hc.symm)
        have hc1 : contrib (d :: D') t = dval d := by
          unfold contrib
          rw [h1]
          rfl
        have hc2 : contrib D' t = 0 := by
          unfold contrib
          rw [h2]
        rw [hc1, hc2, if_pos h]
        ring
      · have h1 : diffAt (d :: D') t = diffAt D' t := by
          unfold diffAt
          exact List.find?_cons_of_neg _ (by
            intro hc
            rw [beq_iff_eq] at hc
            exact h hc)
        have hc1 : contrib (d :: D') t = contrib D' t := by
          unfold contrib
          rw [h1]
        rw [hc1, if_neg h]
        ring
    rw [List.map_eq_map_iff.mpr hpt, List.sum_map_add, ih hpw'.2,
      sum_indicator_range, List.map_cons, List.sum_cons]
    ring

theorem filter_map_sum_eq (g : Diff → Int) :
    ∀ (L : List Diff), (∀ d ∈ L, bothEmpty d = true → g d = 0) →
      ((L.filter (fun d => !(bothEmpty d))).map g).sum = (L.map g).sum := by
  intro L
  induction L with
  | nil =>
    intro _
    rfl
  | cons d L' ih =>
    intro h
    rw [List.filter_cons]
    by_cases hbe : bothEmpty d = true
    · rw [if_neg (by rw [hbe]; simp)]
      rw [ih (fun x hx hbx => h x (List.mem_cons_of_mem _ hx) hbx),
        List.map_cons, List.sum_cons, h d (List.mem_cons_self _ _) hbe]
      ring
    · rw [if_pos (by rw [Bool.not_eq_true] at hbe; rw [hbe]; simp)]
      rw [List.map_cons, List.map_cons, List.sum_cons, List.sum_cons,
        ih (fun x hx hbx => h x (List.mem_cons_of_mem _ hx) hbx)]

/-- C10 counterexample (to the sum clause): with `word2ph = [1, 1, 1]`,
generated interior `["a"]` and given interior `["a", "a", "b"]` (the
generated sequence plus a suffix with a different last phoneme), the
provisional counts are `[2]`, summing to 2 — not the generated length 1
claimed — while the assertion still fails. -/
theorem c10_counterexample :
    provisional_word2ph [1, 1, 1] ["_", "a", "_"] ["_", "a", "a", "b", "_"] =
      [2] ∧
    ([2] : List Int).sum ≠
      ((pyStrip (["_", "a", "_"] : List String)).length : Int) ∧
    adjust_word2ph [1, 1, 1] ["_", "a", "_"] ["_", "a", "a", "b", "_"] =
      none := by decide

/-- C10 (amended): for every boundary-padded `word2ph` (non-negative
interior entries summing to the generated interior's length) and a given
sequence equal to the generated one followed by a non-empty suffix with
a different last phoneme, `adjust_word2ph` hits its internal assertion
(modelled as `none`): the diff extraction truncates the final non-common
segment one element short of the sequence ends (and the trailing diff
begins at an index the replay never reaches), so the provisional counts
sum to strictly less than the given length (namely to one more than the
last matched given index), never reaching the given length. -/
theorem c10_adjust_word2ph_assert (W : List Int) (X S : List String)
    (w0 w1 : Int) (g0 g1 v0 v1 : String)
    (hW : ∀ w ∈ W, 0 ≤ w)
    (hsum : W.sum = (X.length : Int))
    (hX : X ≠ []) (hS : S ≠ [])
    (hne : X.getLast? ≠ S.getLast?) :
    (provisional_word2ph (w0 :: W ++ [w1]) (g0 :: X ++ [g1])
      (v0 :: (X ++ S) ++ [v1])).sum < (((X ++ S).length : Nat) : Int) ∧
    adjust_word2ph (w0 :: W ++ [w1]) (g0 :: X ++ [g1])
      (v0 :: (X ++ S) ++ [v1]) = none := by
  have hm : 1 ≤ X.length := List.length_pos.mpr hX
  have hs : 1 ≤ S.length := List.length_pos.mpr hS
  have hn : (X ++ S).length = X.length + S.length := List.length_append X S
  obtain ⟨P, hP⟩ : ∃ P, pairsAux X (X ++ S) X.length (X ++ S).length = P :=
    ⟨_, rfl⟩
  -- facts about the traceback pair list
  have hlen : P.length = X.length := by
    rw [← hP, pairsAux_length_eq X (X ++ S) (X.length + (X ++ S).length)
        X.length (X ++ S).length (le_refl _),
      lcsL_min X S (X.length + (X ++ S).length) X.length (X ++ S).length
        (le_refl _) (le_refl _)]
    omega
  have hmemP : ∀ p ∈ P, p.1 < X.length ∧ p.2 < (X ++ S).length ∧
      X.getD p.1 "" = (X ++ S).getD p.2 "" := by
    rw [← hP]
    exact pairsAux_mem X (X ++ S) (X.length + (X ++ S).length) X.length
      (X ++ S).length (le_refl _)
  have hchainP : List.Chain' (fun p q : Nat × Nat => p.1 < q.1 ∧ p.2 < q.2)
      P := by
    rw [← hP]
    exact pairsAux_chain X (X ++ S) (X.length + (X ++ S).length) X.length
      (X ++ S).length (le_refl _)
  have hPne : P ≠ [] := by
    intro hc
    rw [hc] at hlen
    simp at hlen
    omega
  obtain ⟨lp, hlpP⟩ : ∃ lp, P.getLast? = some lp :=
    ⟨_, List.getLast?_eq_getLast _ hPne⟩
  have hlpmem : lp ∈ P := List.mem_of_mem_getLast? (by rw [hlpP]; rfl)
  have hstep2 : ∀ q, q + 1 < P.length → ∀ p1 p2, P[q]? = some p1 →
      P[q + 1]? = some p2 → p1.1 < p2.1 := by
    intro q hq p1 p2 hp1 hp2
    have hc := (List.chain'_iff_get.mp hchainP) q (by omega)
    have h1 : P.get ⟨q, by omega⟩ = p1 := by
      have h3 := List.getElem?_eq_getElem (show q < P.length by omega)
      rw [hp1] at h3
      exact (Option.some_inj.mp h3).symm
    have h2 : P.get ⟨q + 1, by omega⟩ = p2 := by
      have h3 := List.getElem?_eq_getElem (show q + 1 < P.length by omega)
      rw [hp2] at h3
      exact (Option.some_inj.mp h3).symm
    rw [h1, h2] at hc
    exact hc.1
  have hmono : ∀ k : Nat, ∀ p : Nat × Nat, P[k]? = some p → k ≤ p.1 := by
    intro k
    induction k with
    | zero =>
      intro p _
      omega
    | succ q ihq =>
      intro p hp
      have hklen : q + 1 < P.length := by
        by_contra hc
        rw [List.getElem?_eq_none (by omega)] at hp
        cases hp
      have hq : q < P.length := by omega
      have hqe := List.getElem?_eq_getElem hq
      have h1 := ihq _ hqe
      have h2 := hstep2 q hklen _ p hqe hp
      omega
  have hlpget : P[P.length - 1]? = some lp := by
    rw [← List.getLast?_eq_getElem?]
    exact hlpP
  have hlp1 : lp.1 = X.length - 1 := by
    have h1 := hmono _ lp hlpget
    have h2 := (hmemP lp hlpmem).1
    omega
  -- the last matched given index stays below the truncated end
  have hXlast : X.getLast? = some (X.getD (X.length - 1) "") := by
    rw [List.getLast?_eq_getElem?, List.getD_eq_getElem?_getD,
      List.getElem?_eq_getElem (show X.length - 1 < X.length by omega)]
    rfl
  have hSlast : S.getLast? = some (S.getD (S.length - 1) "") := by
    rw [List.getLast?_eq_getElem?, List.getD_eq_getElem?_getD,
      List.getElem?_eq_getElem (show S.length - 1 < S.length by omega)]
    rfl
  have hYend : (X ++ S).getD ((X ++ S).length - 1) "" =
      S.getD (S.length - 1) "" := by
    rw [List.getD_eq_getElem?_getD, List.getD_eq_getElem?_getD,
      List.getElem?_append_right (by omega)]
    have he : (X ++ S).length - 1 - X.length = S.length - 1 := by omega
    rw [he]
  have hlp2 : lp.2 ≤ (X ++ S).length - 2 := by
    have hb := (hmemP lp hlpmem).2.1
    by_contra hc
    have hl2 : lp.2 = (X ++ S).length - 1 := by omega
    have hgd := (hmemP lp hlpmem).2.2
    rw [hlp1, hl2, hYend] at hgd
    exact hne (by rw [hXlast, hSlast, hgd])
  -- the extracted diff list
  have hED : extract_differences X (X ++ S) =
      ((loopDiffs X (X ++ S) P (-1) (-1)) ++
        ([{ genBegin := (lp.1 : Int) + 1, genEnd := ((X.length : Int)) - 1,
            genVal := pySlice X ((lp.1 : Int) + 1) (((X.length : Int)) - 1),
            givBegin := (lp.2 : Int) + 1,
            givEnd := (((X ++ S).length : Int)) - 1,
            givVal := pySlice (X ++ S) ((lp.2 : Int) + 1)
              ((((X ++ S).length : Int)) - 1) }] : List Diff)).filter
        (fun d => !(bothEmpty d)) := by
    simp only [extract_differences, longest_common_subsequence]
    rw [hP]
    simp only [hlpP]
    rw [if_pos (Or.inr (by omega))]
  have hhd1 : ∀ h ∈ P.head?, (-1 : Int) < (h.1 : Int) := by
    intro h _
    omega
  have hhd2 : ∀ h ∈ P.head?, (-1 : Int) < (h.1 : Int) ∧
      (-1 : Int) < (h.2 : Int) := by
    intro h _
    constructor <;> omega
  have hub := loopDiffs_genBegin_ub X (X ++ S) ((X.length : Int) - 1) P
    (-1) (-1) hchainP (fun p hp => by have := (hmemP p hp).1; omega) hhd1
  have hlb : ∀ d ∈ loopDiffs X (X ++ S) P (-1) (-1), 0 ≤ d.genBegin := by
    intro d hd
    have := loopDiffs_genBegin_lb X (X ++ S) P (-1) (-1) hchainP hhd1 d hd
    omega
  have hpw_raw : List.Pairwise
      (fun d d' : Diff => d.genBegin < d'.genBegin)
      ((loopDiffs X (X ++ S) P (-1) (-1)) ++
        ([{ genBegin := (lp.1 : Int) + 1, genEnd := ((X.length : Int)) - 1,
            genVal := pySlice X ((lp.1 : Int) + 1) (((X.length : Int)) - 1),
            givBegin := (lp.2 : Int) + 1,
            givEnd := (((X ++ S).length : Int)) - 1,
            givVal := pySlice (X ++ S) ((lp.2 : Int) + 1)
              ((((X ++ S).length : Int)) - 1) }] : List Diff)) := by
    rw [List.pairwise_append]
    refine ⟨loopDiffs_pairwise X (X ++ S) P (-1) (-1) hchainP hhd1,
      List.pairwise_singleton _ _, ?_⟩
    intro a ha b hb
    rw [List.mem_singleton] at hb
    subst hb
    show a.genBegin < (lp.1 : Int) + 1
    have := hub a ha
    omega
  have hpw_ne : List.Pairwise
      (fun d d' : Diff => d.genBegin ≠ d'.genBegin)
      (extract_differences X (X ++ S)) := by
    rw [hED]
    exact (hpw_raw.imp (fun h => ne_of_lt h)).sublist (List.filter_sublist _)
  -- the provisional sum
  have hN : (W.map Int.toNat).sum = X.length := by
    have h1 := sum_map_toNat W hW
    rw [hsum] at h1
    exact_mod_cast h1
  have hprov : provisional_word2ph (w0 :: W ++ [w1]) (g0 :: X ++ [g1])
      (v0 :: (X ++ S) ++ [v1]) =
      (replayGo (extract_differences X (X ++ S)) W 0).1 := by
    unfold provisional_word2ph
    rw [pyStrip_wrap, pyStrip_wrap, pyStrip_wrap]
  have hcontrib : ((List.range X.length).map
      (fun t => contrib (extract_differences X (X ++ S)) t)).sum =
      (lp.2 : Int) - (X.length : Int) + 1 := by
    rw [contrib_sum_eq X.length (extract_differences X (X ++ S)) hpw_ne]
    rw [hED]
    rw [filter_map_sum_eq _ _ (by
      intro d _ hbe
      show (if 0 ≤ d.genBegin ∧ d.genBegin < ((X.length : Nat) : Int)
        then dval d else 0) = 0
      by_cases hc : 0 ≤ d.genBegin ∧ d.genBegin < ((X.length : Nat) : Int)
      · rw [if_pos hc, bothEmpty_dval hbe]
      · rw [if_neg hc])]
    rw [List.map_append, List.sum_append]
    have hgfin : (([{ genBegin := (lp.1 : Int) + 1,
                      genEnd := ((X.length : Int)) - 1,
                      genVal := pySlice X ((lp.1 : Int) + 1)
                        (((X.length : Int)) - 1),
                      givBegin := (lp.2 : Int) + 1,
                      givEnd := (((X ++ S).length : Int)) - 1,
                      givVal := pySlice (X ++ S) ((lp.2 : Int) + 1)
                        ((((X ++ S).length : Int)) - 1) }] : List Diff).map
        (fun d => if 0 ≤ d.genBegin ∧ d.genBegin < ((X.length : Nat) : Int)
          then dval d else 0)).sum = 0 := by
      show (if 0 ≤ (lp.1 : Int) + 1 ∧ (lp.1 : Int) + 1 < (X.length : Int)
        then dval { genBegin := (lp.1 : Int) + 1,
                    genEnd := ((X.length : Int)) - 1,
                    genVal := pySlice X ((lp.1 : Int) + 1)
                      (((X.length : Int)) - 1),
                    givBegin := (lp.2 : Int) + 1,
                    givEnd := (((X ++ S).length : Int)) - 1,
                    givVal := pySlice (X ++ S) ((lp.2 : Int) + 1)
                      ((((X ++ S).length : Int)) - 1) } else 0) + 0 = 0
      rw [if_neg (by omega)]
      ring
    rw [hgfin]
    have hmapg : (loopDiffs X (X ++ S) P (-1) (-1)).map
        (fun d => if 0 ≤ d.genBegin ∧ d.genBegin < ((X.length : Nat) : Int)
          then dval d else 0) =
        (loopDiffs X (X ++ S) P (-1) (-1)).map dval := by
      apply List.map_eq_map_iff.mpr
      intro d hd
      rw [if_pos ⟨hlb d hd, by have := hub d hd; omega⟩]
    rw [hmapg]
    rw [loopDiffs_sum X (X ++ S) P (-1) (-1) hchainP
      (fun p hp => ⟨(hmemP p hp).1, (hmemP p hp).2.1⟩) hhd2
      (by omega) (by omega)]
    rw [hlpP]
    show ((lp.2 : Int) - (-1)) - ((lp.1 : Int) - (-1)) + 0 =
      (lp.2 : Int) - (X.length : Int) + 1
    omega
  have hslt : (provisional_word2ph (w0 :: W ++ [w1]) (g0 :: X ++ [g1])
      (v0 :: (X ++ S) ++ [v1])).sum < (((X ++ S).length : Nat) : Int) := by
    rw [hprov]
    have h1 := (replayGo_spec (extract_differences X (X ++ S)) W 0).2
    rw [hN] at h1
    have h2 : (List.range X.length).map
        (fun t => contrib (extract_differences X (X ++ S)) (0 + t)) =
        (List.range X.length).map
          (fun t => contrib (extract_differences X (X ++ S)) t) :=
      List.map_eq_map_iff.mpr (fun t _ => by rw [Nat.zero_add])
    rw [h2, hcontrib] at h1
    rw [h1]
    omega
  refine ⟨hslt, ?_⟩
  simp only [adjust_word2ph]
  rw [pyStrip_wrap]
  rw [if_neg (by omega)]

theorem c10_witness :
    (∀ w ∈ ([1] : List Int), 0 ≤ w) ∧
    ([1] : List Int).sum = (((["a"] : List String)).length : Int) ∧
    (["a"] : List String) ≠ [] ∧ (["a", "b"] : List String) ≠ [] ∧
    (["a"] : List String).getLast? ≠ (["a", "b"] : List String).getLast? ∧
    ((provisional_word2ph (1 :: ([1] : List Int) ++ [1])
        ("_" :: ["a"] ++ ["_"]) ("_" :: (["a"] ++ ["a", "b"]) ++ ["_"])).sum <
      (((["a"] ++ ["a", "b"] : List String).length : Nat) : Int) ∧
    adjust_word2ph (1 :: ([1] : List Int) ++ [1]) ("_" :: ["a"] ++ ["_"])
      ("_" :: (["a"] ++ ["a", "b"]) ++ ["_"]) = none) :=
  ⟨by decide, by decide, by decide, by decide, by decide,
    c10_adjust_word2ph_assert [1] ["a"] ["a", "b"] 1 1 "_" "_" "_" "_"
      (by decide) (by decide) (by decide) (by decide) (by decide)⟩
